import Mathlib

/-!
# thrd_pool.c: intrusive task queue, worker loop and pool lifecycle

A shallow embedding of `src/thrd_pool.c`.

* Pointers are natural numbers, `0` is `NULL`.  The heap maps the address of a
  live `task_t` to its three fields.
* A `void **` (the type of `queue->tail` and of the local `link`) is a `slot`:
  `NULL`, the address of `queue->head`, or the address of a task (which, `next`
  being the first field, is the address of that task's `next` field).
* Every function that dereferences a pointer returns `Option`: `none` is a
  fault (a store through `NULL`, a load from a dead cell, a double `free`).
* The spinlock, the mutex and the condition variable are not represented as
  data.  Each critical section is one atomic step; the wake-ups of the
  condition variable appear in the thread-level model further down.
-/

namespace ThrdPool

/-! ## Data model (lines 23-43) -/

/-- The struct `task_t`: `next`, `func`, `arg`. -/
structure task_t where
  next : Nat
  func : Nat
  arg : Nat
deriving DecidableEq, Repr

/-- The values a `void **` takes in this program. -/
inductive slot where
  | null
  | head
  | link (task : Nat)
deriving DecidableEq, Repr

/-- The conversion of a `void *` to `void **`: `(void **)task`, and the implicit
conversion in `queue->tail = queue->head`. -/
def slot.ofPtr (p : Nat) : slot :=
  if p = 0 then slot.null else slot.link p

/-- The struct `task_queue_t` without its three synchronisation objects. -/
structure task_queue_t where
  head : Nat
  tail : slot
  block : Int
deriving DecidableEq, Repr

/-- The heap of `task_t` cells. -/
abbrev heap_t := Nat → Option task_t

/-- What the program does that a caller or a test can observe: `free(task)` of a
task, the handler call `func(ctx)`, a successful `pthread_create` for
`threads[i]`, `pthread_join(threads[i])`, the release of the queue by
`__taskqueue_destroy` (lines 142-145), `free(pool->threads)`, `free(pool)`, and
the two releases of `__taskqueue_create` on its failure paths:
`pthread_mutex_destroy` (line 64) and `free(queue)` (line 66). -/
inductive event where
  | free (task : Nat)
  | call (func arg : Nat)
  | spawn (i : Nat)
  | join (i : Nat)
  | queue_freed
  | threads_freed
  | pool_freed
  | mutex_destroyed
  | queue_released
deriving DecidableEq, Repr

/-- The store `*s = v` through a `void **`. -/
def store (h : heap_t) (q : task_queue_t) : slot → Nat → Option (heap_t × task_queue_t)
  | slot.null, _ => none
  | slot.head, v => some (h, { q with head := v })
  | slot.link a, v =>
    match h a with
    | none => none
    | some c => some (Function.update h a (some { c with next := v }), q)

/-- The call `free(p)` on a task cell. -/
def free (h : heap_t) (p : Nat) : Option heap_t :=
  if p = 0 then some h
  else
    match h p with
    | none => none
    | some _ => some (Function.update h p none)

/-! ## Task queue (lines 49-146) -/

/-- Lines 49-69.  The three arguments say whether `malloc`, `pthread_mutex_init`
and `pthread_cond_init` succeed.  Line 60 is `queue->tail = queue->head;`: the
value of `head`, which line 59 has just set to `NULL`, converted to `void **`.
The result is the returned queue (`none` for `NULL`) and what was released on
the way out: the mutex and the queue when the condition variable fails (lines
64, 66), the queue when the mutex fails (line 66). -/
def __taskqueue_create (malloc_ok mutex_ok cond_ok : Bool) :
    Option task_queue_t × List event :=
  if malloc_ok then
    if mutex_ok then
      if cond_ok then
        let head := 0
        (some { head := head, tail := slot.ofPtr head, block := 1 }, [])
      else (none, [event.mutex_destroyed, event.queue_released])
    else (none, [event.queue_released])
  else (none, [])

/-- Lines 71-77.  The broadcast is in `sys.terminate`. -/
def __nonblock (q : task_queue_t) : task_queue_t :=
  { q with block := 0 }

/-- Lines 79-90: `*link = NULL; *queue->tail = link; queue->tail = link`. -/
def __add_task (h : heap_t) (q : task_queue_t) (task : Nat) : Option (heap_t × task_queue_t) :=
  let link := slot.ofPtr task
  match store h q link 0 with
  | none => none
  | some (h1, q1) =>
    match store h1 q1 q1.tail task with
    | none => none
    | some (h2, q2) => some (h2, { q2 with tail := link })

/-- Lines 93-111.  The result is the popped task (`0` for `NULL`) and the queue. -/
def __pop_task (h : heap_t) (q : task_queue_t) : Option (Nat × task_queue_t) :=
  if q.head = 0 then some (0, q)
  else
    match h q.head with
    | none => none
    | some c =>
      let q1 := { q with head := c.next }
      if q1.head = 0 then some (q.head, { q1 with tail := slot.head })
      else some (q.head, q1)

/-- How one pass of the loop of `__get_task` ends. -/
inductive get_result where
  | task (t : Nat)
  | no_more_work
  | wait
deriving DecidableEq, Repr

/-- Lines 114-134, one pass of the `while`: a task is returned, or `NULL` is
returned because `block == 0`, or the thread blocks in `pthread_cond_wait`
(after which the loop starts over). -/
def __get_task (h : heap_t) (q : task_queue_t) : Option (get_result × task_queue_t) :=
  match __pop_task h q with
  | none => none
  | some (task, q1) =>
    if task = 0 then
      if q1.block = 0 then some (get_result.no_more_work, q1)
      else some (get_result.wait, q1)
    else some (get_result.task task, q1)

/-- Lines 136-146.  The `while` loop runs on fuel; `none` is a fault or the end
of the fuel. -/
def __taskqueue_destroy : Nat → heap_t → task_queue_t → List event →
    Option (heap_t × task_queue_t × List event)
  | 0, _, _, _ => none
  | fuel + 1, h, q, log =>
    match __pop_task h q with
    | none => none
    | some (task, q1) =>
      if task = 0 then some (h, q1, log ++ [event.queue_freed])
      else
        match free h task with
        | none => none
        | some h1 => __taskqueue_destroy fuel h1 q1 (log ++ [event.free task])

/-! ## Pool (lines 38-43, 150-253) -/

/-- The struct `thrdpool_s`.  The queue is held by value.  The array `threads` is
not stored: `threads[i]` is the handle the `i`-th `pthread_create` wrote, and a
thread is named by that index `i`. -/
structure thrdpool_s where
  task_queue : task_queue_t
  quit : Int
  thrd_count : Int
deriving DecidableEq, Repr

/-- The heap, the pool and the events so far. -/
structure world where
  heap : heap_t
  pool : thrdpool_s
  log : List event

/-- Lines 206-211, without the broadcast (see `sys.terminate`). -/
def thrdpool_terminate (w : world) : world :=
  { w with pool := { w.pool with quit := 1, task_queue := __nonblock w.pool.task_queue } }

/-- Lines 232-241.  `p` is what `malloc` returns; the caller of `malloc` may
assume that a non-null `p` is not the address of a live cell.  The `next` field of
the new cell is indeterminate until line 83 writes it; it is `0` here.  The
result is the returned `int` and the new state. -/
def thrdpool_post (w : world) (func arg : Nat) (p : Nat) : Option (Int × world) :=
  if w.pool.quit = 1 then some (-1, w)
  else if p = 0 then none
  else
    let h1 := Function.update w.heap p (some { next := 0, func := func, arg := arg })
    match __add_task h1 w.pool.task_queue p with
    | none => none
    | some (h2, q2) =>
      some (0, { w with heap := h2, pool := { w.pool with task_queue := q2 } })

/-- How one iteration of the loop of `__thrdpool_worker` ends. -/
inductive iter_result where
  | exit
  | wait
  | ran
deriving DecidableEq, Repr

/-- Lines 156-163, one iteration run without interference from other threads.
The handler call is the event `call func ctx`; what the handler itself does is
outside the pool. -/
def worker_iter (w : world) : Option (iter_result × world) :=
  if w.pool.quit = 0 then
    match __get_task w.heap w.pool.task_queue with
    | none => none
    | some (get_result.no_more_work, q1) =>
      some (iter_result.exit, { w with pool := { w.pool with task_queue := q1 } })
    | some (get_result.wait, q1) =>
      some (iter_result.wait, { w with pool := { w.pool with task_queue := q1 } })
    | some (get_result.task task, q1) =>
      match w.heap task with
      | none => none
      | some c =>
        match free w.heap task with
        | none => none
        | some h1 =>
          some (iter_result.ran,
            { heap := h1, pool := { w.pool with task_queue := q1 },
              log := w.log ++ [event.free task, event.call c.func c.arg] })
  else some (iter_result.exit, w)

/-- Iterations of `worker_iter` while they end in `ran`; the result is how the
last one ended. -/
def worker_iters : Nat → world → Option (iter_result × world)
  | 0, w => some (iter_result.ran, w)
  | n + 1, w =>
    match worker_iter w with
    | some (iter_result.ran, w1) => worker_iters n w1
    | r => r

/-- The `pthread_join` loops of lines 172-174 and 247-249. -/
def joins (thrd_count : Int) : List event :=
  (List.range thrd_count.toNat).map event.join

/-- Lines 167-175. -/
def __threads_terminate (w : world) : world :=
  let w1 := thrdpool_terminate w
  { w1 with log := w1.log ++ joins w1.pool.thrd_count }

/-- What the environment answers during creation: whether each allocation
succeeds, the return code of `pthread_attr_init`, and whether the
`pthread_create` for `threads[i]` returns `0`. -/
structure env where
  malloc_pool : Bool
  malloc_queue : Bool
  mutex_init : Bool
  cond_init : Bool
  attr_init : Int
  malloc_threads : Bool
  spawn : Nat → Bool

/-- Lines 187-192: the value of `i` when the `for` loop ends.  The first argument
is the number of iterations left at most. -/
def spawn_loop (spawn : Nat → Bool) (thrd_count : Nat) : Nat → Nat → Nat
  | 0, i => i
  | fuel + 1, i =>
    if i < thrd_count then
      if spawn i then spawn_loop spawn thrd_count fuel (i + 1) else i
    else i

/-- Lines 177-204.  `thrd_count` is the `size_t` argument. -/
def __threads_create (e : env) (w : world) (thrd_count : Nat) : Int × world :=
  if e.attr_init = 0 then
    if e.malloc_threads then
      let i := spawn_loop e.spawn thrd_count thrd_count 0
      let w1 : world :=
        { w with pool := { w.pool with thrd_count := (i : Int) },
                 log := w.log ++ (List.range i).map event.spawn }
      if i = thrd_count then (0, w1)
      else
        let w2 := __threads_terminate w1
        (-1, { w2 with log := w2.log ++ [event.threads_freed] })
    else (-1, w)
  else (e.attr_init, w)

/-- The conversion of the `int` argument of `thrdpool_create` to `size_t`. -/
def size_t_of_int (n : Int) : Nat :=
  (n % 2 ^ 64).toNat

/-- Lines 213-230.  The result is the returned pool (`none` for `NULL`) and the
events, those of `__taskqueue_create` first; the outer `none` is a fault or the
end of the fuel of `__taskqueue_destroy`.  The threads already started run `__thrdpool_worker` on a
queue nobody else can reach yet. -/
def thrdpool_create (e : env) (fuel : Nat) (h : heap_t) (thrd_count : Int) :
    Option (Option thrdpool_s × List event) :=
  if e.malloc_pool then
    match __taskqueue_create e.malloc_queue e.mutex_init e.cond_init with
    | (some queue, log0) =>
      let w : world :=
        { heap := h, pool := { task_queue := queue, quit := 0, thrd_count := 0 }, log := log0 }
      match __threads_create e w (size_t_of_int thrd_count) with
      | (ret, w1) =>
        if ret = 0 then some (some w1.pool, w1.log)
        else
          match __taskqueue_destroy fuel w1.heap w1.pool.task_queue w1.log with
          | none => none
          | some (_, _, log) => some (none, log ++ [event.pool_freed])
    | (none, log0) => some (none, log0 ++ [event.pool_freed])
  else some (none, [])

/-- Lines 244-253, entered once every worker has returned (the joins block until
then). -/
def thrdpool_waitdone (fuel : Nat) (w : world) : Option world :=
  match __taskqueue_destroy fuel w.heap w.pool.task_queue (w.log ++ joins w.pool.thrd_count) with
  | none => none
  | some (h1, q1, log) =>
    some { heap := h1, pool := { w.pool with task_queue := q1 },
           log := log ++ [event.threads_freed, event.pool_freed] }

/-! ## Threads

The pool in the phase in which no client posts: worker threads interleave at
the granularity of the critical sections, and a client may call
`thrdpool_terminate`. -/

/-- Where a worker thread stands in `__thrdpool_worker`: `top` before the load of
`quit` (line 156), `pop` before a call of `__pop_task` (line 119), `chk` after
`__pop_task` returned `NULL` (line 120), `wait` inside `pthread_cond_wait` (line
130), `got task` when `__get_task` has returned `task` (line 158), `handler`
inside `func(ctx)` (line 162), `done` after the loop (line 164). -/
inductive wpc where
  | top
  | pop
  | chk
  | wait
  | got (task : Nat)
  | handler
  | done
deriving DecidableEq, Repr

/-- One step of a worker thread.  At `wait` it is the step the thread takes when
it is woken; at `done` there is nothing left to do. -/
def wstep (w : world) : wpc → Option (wpc × world)
  | wpc.top => if w.pool.quit = 0 then some (wpc.pop, w) else some (wpc.done, w)
  | wpc.pop =>
    match __pop_task w.heap w.pool.task_queue with
    | none => none
    | some (task, q1) =>
      if task = 0 then some (wpc.chk, { w with pool := { w.pool with task_queue := q1 } })
      else some (wpc.got task, { w with pool := { w.pool with task_queue := q1 } })
  | wpc.chk => if w.pool.task_queue.block = 0 then some (wpc.done, w) else some (wpc.wait, w)
  | wpc.wait => some (wpc.pop, w)
  | wpc.got task =>
    match w.heap task with
    | none => none
    | some c =>
      match free w.heap task with
      | none => none
      | some h1 =>
        some (wpc.handler,
          { w with heap := h1, log := w.log ++ [event.free task, event.call c.func c.arg] })
  | wpc.handler => some (wpc.top, w)
  | wpc.done => some (wpc.done, w)

/-- The pool and its worker threads. -/
structure sys where
  w : world
  thr : List wpc

/-- What can happen next: worker `i` takes a step, worker `i` wakes up from
`pthread_cond_wait` without a signal, or a client calls `thrdpool_terminate`. -/
inductive action where
  | worker (i : Nat)
  | wake (i : Nat)
  | terminate
deriving DecidableEq, Repr

/-- The broadcast of line 76: every thread inside `pthread_cond_wait` is woken. -/
def broadcast (thr : List wpc) : List wpc :=
  thr.map (fun pc => if pc = wpc.wait then wpc.pop else pc)

/-- The call `thrdpool_terminate(pool)` with its broadcast. -/
def sys.terminate (s : sys) : sys :=
  { w := thrdpool_terminate s.w, thr := broadcast s.thr }

/-- One action; `none` when the action is not possible (the thread does not exist,
is blocked or has returned) or faults. -/
def sys.step (s : sys) : action → Option sys
  | action.worker i =>
    match s.thr[i]? with
    | none => none
    | some pc =>
      if pc = wpc.wait ∨ pc = wpc.done then none
      else
        match wstep s.w pc with
        | none => none
        | some (pc1, w1) => some { w := w1, thr := s.thr.set i pc1 }
  | action.wake i =>
    match s.thr[i]? with
    | some wpc.wait => some { s with thr := s.thr.set i wpc.pop }
    | _ => none
  | action.terminate => some s.terminate

/-- A sequence of actions. -/
def sys.run (s : sys) : List action → Option sys
  | [] => some s
  | a :: as =>
    match s.step a with
    | none => none
    | some s1 => s1.run as

/-- The call `thrdpool_waitdone(pool)`: the joins return once every worker has. -/
def sys.waitdone (fuel : Nat) (s : sys) : Option world :=
  if s.thr.all (fun pc => pc = wpc.done) then thrdpool_waitdone fuel s.w else none

/-! ## Specification vocabulary -/

/-- The cells `l`, in order, are the list that starts at pointer `p` and ends in
`NULL`. -/
def linked (h : heap_t) : Nat → List Nat → Bool
  | p, [] => decide (p = 0)
  | p, a :: l =>
    decide (p = a) && decide (a ≠ 0) &&
      match h a with
      | some c => linked h c.next l
      | none => false

/-- The insertion point for the list `l`: `&queue->head` when `l` is empty, the
address of the `next` field of the last task otherwise. -/
def tail_of (l : List Nat) : slot :=
  match l.getLast? with
  | none => slot.head
  | some a => slot.link a

/-- The queue `q` holds exactly the tasks `l` and its `tail` is the insertion
point. -/
def WF (h : heap_t) (q : task_queue_t) (l : List Nat) : Prop :=
  linked h q.head l = true ∧ q.tail = tail_of l

instance (h : heap_t) (q : task_queue_t) (l : List Nat) : Decidable (WF h q l) := by
  unfold WF; infer_instance

/-- Successive calls of `__pop_task`: the tasks returned and the final queue. -/
def pops : Nat → heap_t → task_queue_t → Option (List Nat × task_queue_t)
  | 0, _, q => some ([], q)
  | n + 1, h, q =>
    match __pop_task h q with
    | none => none
    | some (t, q1) =>
      match pops n h q1 with
      | none => none
      | some (ts, q2) => some (t :: ts, q2)

/-- Successive calls of `__get_task`, each of which returns. -/
def gets : Nat → heap_t → task_queue_t → Option (List get_result × task_queue_t)
  | 0, _, q => some ([], q)
  | n + 1, h, q =>
    match __get_task h q with
    | none => none
    | some (r, q1) =>
      match gets n h q1 with
      | none => none
      | some (rs, q2) => some (r :: rs, q2)

/-- Successive calls of `__add_task`. -/
def adds (h : heap_t) (q : task_queue_t) : List Nat → Option (heap_t × task_queue_t)
  | [] => some (h, q)
  | t :: ts =>
    match __add_task h q t with
    | none => none
    | some (h1, q1) => adds h1 q1 ts

/-- The addresses freed, in order. -/
def frees (log : List event) : List Nat :=
  log.filterMap (fun e => match e with | event.free a => some a | _ => none)

/-- The handler calls, in order. -/
def calls (log : List event) : List (Nat × Nat) :=
  log.filterMap (fun e => match e with | event.call f x => some (f, x) | _ => none)

/-- The handler and the context stored in the cell at `a`. -/
def payload (h : heap_t) (a : Nat) : Option (Nat × Nat) :=
  (h a).map (fun c => (c.func, c.arg))

/-- The events of a worker that takes the tasks `l` one after the other from the
heap `h`: each is freed, then its handler is called on its context. -/
def runs (h : heap_t) (l : List Nat) : List event :=
  l.flatMap (fun a =>
    match payload h a with
    | some (f, x) => [event.free a, event.call f x]
    | none => [])

/-- The task a thread holds between `__get_task` and `free`, if any. -/
def wpc.task : wpc → Option Nat
  | wpc.got a => some a
  | _ => none

/-- The tasks the threads hold between `__get_task` and `free`. -/
def inflight (thr : List wpc) : List Nat :=
  thr.filterMap wpc.task

/-- A bound on the steps a worker still takes once `quit = 1` and `block = 0`. -/
def rank : wpc → Nat
  | wpc.top => 1
  | wpc.pop => 4
  | wpc.chk => 1
  | wpc.wait => 5
  | wpc.got _ => 3
  | wpc.handler => 2
  | wpc.done => 0

/-- The sum of the ranks of the threads. -/
def total_rank (thr : List wpc) : Nat :=
  (thr.map rank).sum

/-- A bound on the handler calls a worker still makes once `quit = 1`: one if it
is past the test of `quit` and has not called its handler yet. -/
def calls_left : wpc → Nat
  | wpc.pop => 1
  | wpc.wait => 1
  | wpc.got _ => 1
  | _ => 0

/-- The sum of `calls_left` over the threads. -/
def total_calls_left (thr : List wpc) : Nat :=
  (thr.map calls_left).sum

/-- The number of steps of worker threads in a sequence of actions. -/
def worker_actions (as : List action) : Nat :=
  (as.filter (fun a => decide (a ≠ action.terminate))).length

/-- The invariant of the pool while no client posts, relative to the heap `h0`,
the queued tasks `l0` and the log `log0` of a starting state: the tasks `X` run
since then, those in flight and those still queued are together the tasks `l0`;
the log has grown by the runs of `X`; the cells not yet freed are as in `h0`. -/
def Inv (h0 : heap_t) (l0 : List Nat) (log0 : List event) (s : sys) : Prop :=
  ∃ X ql, s.w.log = log0 ++ runs h0 X ∧
    linked s.w.heap s.w.pool.task_queue.head ql = true ∧
    List.Perm (X ++ inflight s.thr ++ ql) l0 ∧
    ∀ a ∈ inflight s.thr ++ ql, s.w.heap a = h0 a

/-- The steps of `wstep`, case by case. -/
inductive wtrans (w : world) : wpc → wpc → world → Prop where
  | top_go : w.pool.quit = 0 → wtrans w wpc.top wpc.pop w
  | top_exit : w.pool.quit ≠ 0 → wtrans w wpc.top wpc.done w
  | pop_empty (q1 : task_queue_t) :
      __pop_task w.heap w.pool.task_queue = some (0, q1) →
      wtrans w wpc.pop wpc.chk { w with pool := { w.pool with task_queue := q1 } }
  | pop_task (t : Nat) (q1 : task_queue_t) : t ≠ 0 →
      __pop_task w.heap w.pool.task_queue = some (t, q1) →
      wtrans w wpc.pop (wpc.got t) { w with pool := { w.pool with task_queue := q1 } }
  | chk_exit : w.pool.task_queue.block = 0 → wtrans w wpc.chk wpc.done w
  | chk_wait : w.pool.task_queue.block ≠ 0 → wtrans w wpc.chk wpc.wait w
  | woken : wtrans w wpc.wait wpc.pop w
  | run (t : Nat) (c : task_t) (h1 : heap_t) : w.heap t = some c → free w.heap t = some h1 →
      wtrans w (wpc.got t) wpc.handler
        { w with heap := h1, log := w.log ++ [event.free t, event.call c.func c.arg] }
  | ret : wtrans w wpc.handler wpc.top w
  | stay : wtrans w wpc.done wpc.done w

/-- The pool after `thrdpool_terminate`: the invariant holds, both flags are
set and no thread is inside `pthread_cond_wait`. -/
def Draining (h0 : heap_t) (l0 : List Nat) (log0 : List event) (s : sys) : Prop :=
  Inv h0 l0 log0 s ∧ s.w.pool.quit = 1 ∧ s.w.pool.task_queue.block = 0 ∧ wpc.wait ∉ s.thr

/-! ## Concrete states -/

/-- Two live tasks: `A` at address 1 (handler 10, context 11) linked to `B` at
address 2 (handler 20, context 21). -/
def heap_AB : heap_t := fun a =>
  if a = 1 then some { next := 2, func := 10, arg := 11 }
  else if a = 2 then some { next := 0, func := 20, arg := 21 }
  else none

/-- The queue that holds `A` then `B`. -/
def queue_AB : task_queue_t :=
  { head := 1, tail := slot.link 2, block := 1 }

/-- A running pool with one worker and the tasks `A`, `B` linked in its queue,
`tail` at the `next` field of `B`. -/
def world_AB : world :=
  { heap := heap_AB, pool := { task_queue := queue_AB, quit := 0, thrd_count := 1 }, log := [] }

/-- An environment in which every allocation succeeds and the second
`pthread_create` fails. -/
def env_second_spawn_fails : env :=
  { malloc_pool := true, malloc_queue := true, mutex_init := true, cond_init := true,
    attr_init := 0, malloc_threads := true, spawn := fun i => decide (i < 1) }

/-- An environment in which everything succeeds. -/
def env_ok : env :=
  { malloc_pool := true, malloc_queue := true, mutex_init := true, cond_init := true,
    attr_init := 0, malloc_threads := true, spawn := fun _ => true }

/-- A heap without a live task. -/
def heap_empty : heap_t := fun _ => none

/-- One worker at the top of its loop, `A` and `B` linked. -/
def sys_AB : sys :=
  { w := world_AB, thr := [wpc.top] }

/-- The worker takes `A` and enters its handler; the client calls
`thrdpool_terminate`; the handler returns and the worker tests `quit`. -/
def terminate_during_A : List action :=
  [action.worker 0, action.worker 0, action.worker 0, action.terminate,
   action.worker 0, action.worker 0]

/-- The state after `terminate_during_A`: `A` has been run and freed, `B` is
still linked, the worker has returned. -/
def sys_AB_end : sys :=
  { w := { heap := Function.update heap_AB 1 none,
           pool := { task_queue := { head := 2, tail := slot.link 2, block := 0 },
                     quit := 1, thrd_count := 1 },
           log := [event.free 1, event.call 10 11] },
    thr := [wpc.done] }

/-- The state after the worker has taken `A` and entered its handler. -/
def sys_AB_mid : sys :=
  { w := { heap := Function.update heap_AB 1 none,
           pool := { task_queue := { head := 2, tail := slot.link 2, block := 1 },
                     quit := 0, thrd_count := 1 },
           log := [event.free 1, event.call 10 11] },
    thr := [wpc.handler] }

/-- The pool `thrdpool_create(1)` returns when everything succeeds. -/
def pool_created : thrdpool_s :=
  { task_queue := { head := 0, tail := slot.null, block := 1 }, quit := 0, thrd_count := 1 }

/-- The state right after `thrdpool_create(1)`: no task, one thread spawned. -/
def world_created : world :=
  { heap := heap_empty, pool := pool_created, log := [event.spawn 0] }

/-- An environment in which `pthread_cond_init` fails. -/
def env_cond_init_fails : env :=
  { malloc_pool := true, malloc_queue := true, mutex_init := true, cond_init := false,
    attr_init := 0, malloc_threads := true, spawn := fun _ => true }

/-! ## Lists in the heap -/

theorem linked_nil (h : heap_t) (p : Nat) : linked h p [] = true ↔ p = 0 := by
  simp [linked]

theorem linked_cons (h : heap_t) (p a : Nat) (l : List Nat) :
    linked h p (a :: l) = true ↔
      p = a ∧ a ≠ 0 ∧ ∃ c, h a = some c ∧ linked h c.next l = true := by
  cases hc : h a <;> simp [linked, hc, and_assoc]

/-- The pointer determines the list. -/
theorem linked_unique (h : heap_t) : ∀ (l l2 : List Nat) (p : Nat),
    linked h p l = true → linked h p l2 = true → l = l2
  | [], [], _, _, _ => rfl
  | [], b :: l2, p, h1, h2 => by
    rw [linked_nil] at h1
    rw [linked_cons] at h2
    omega
  | a :: l, [], p, h1, h2 => by
    rw [linked_nil] at h2
    rw [linked_cons] at h1
    omega
  | a :: l, b :: l2, p, h1, h2 => by
    rw [linked_cons] at h1 h2
    obtain ⟨e1, _, c1, hc1, t1⟩ := h1
    obtain ⟨e2, _, c2, hc2, t2⟩ := h2
    have hab : a = b := by omega
    subst hab
    rw [hc1] at hc2
    cases hc2
    rw [linked_unique h l l2 c1.next t1 t2]

/-- A list in the heap has a list in the heap after each of its cells. -/
theorem linked_suffix (h : heap_t) : ∀ (l1 l2 : List Nat) (p a : Nat),
    linked h p (l1 ++ a :: l2) = true → linked h a (a :: l2) = true
  | [], l2, p, a, hl => by
    simp only [List.nil_append] at hl
    rw [linked_cons] at hl ⊢
    exact ⟨rfl, hl.2⟩
  | b :: l1, l2, p, a, hl => by
    simp only [List.cons_append] at hl
    rw [linked_cons] at hl
    obtain ⟨_, _, c, _, t⟩ := hl
    exact linked_suffix h l1 l2 c.next a t

/-- A list in the heap visits no cell twice. -/
theorem linked_nodup (h : heap_t) : ∀ (l : List Nat) (p : Nat),
    linked h p l = true → l.Nodup
  | [], _, _ => List.nodup_nil
  | a :: l, p, hl => by
    have hl0 := hl
    rw [linked_cons] at hl
    obtain ⟨_, _, c, hc, t⟩ := hl
    refine List.nodup_cons.mpr ⟨?_, linked_nodup h l c.next t⟩
    intro hmem
    obtain ⟨l1, l2, rfl⟩ := List.append_of_mem hmem
    have hs := linked_suffix h l1 l2 c.next a t
    rw [linked_cons] at hs
    obtain ⟨_, _, c2, hc2, t2⟩ := hs
    rw [hc] at hc2
    cases hc2
    have := linked_unique h _ _ _ t t2
    have hlen := congrArg List.length this
    simp at hlen
    omega

/-- No cell of a list in the heap is at address `0`. -/
theorem linked_ne_zero (h : heap_t) : ∀ (l : List Nat) (p : Nat),
    linked h p l = true → ∀ a ∈ l, a ≠ 0
  | [], _, _, a, ha => by simp at ha
  | b :: l, p, hl, a, ha => by
    rw [linked_cons] at hl
    obtain ⟨_, hb, c, _, t⟩ := hl
    rcases List.mem_cons.mp ha with rfl | ha2
    · exact hb
    · exact linked_ne_zero h l c.next t a ha2

/-- Every cell of a list in the heap is live. -/
theorem linked_live (h : heap_t) : ∀ (l : List Nat) (p : Nat),
    linked h p l = true → ∀ a ∈ l, ∃ c, h a = some c
  | [], _, _, a, ha => by simp at ha
  | b :: l, p, hl, a, ha => by
    rw [linked_cons] at hl
    obtain ⟨_, _, c, hc, t⟩ := hl
    rcases List.mem_cons.mp ha with rfl | ha2
    · exact ⟨c, hc⟩
    · exact linked_live h l c.next t a ha2

/-- A list in the heap depends on its own cells only. -/
theorem linked_congr (h h2 : heap_t) : ∀ (l : List Nat) (p : Nat),
    (∀ a ∈ l, h2 a = h a) → linked h p l = true → linked h2 p l = true
  | [], p, _, hl => by
    rw [linked_nil] at hl ⊢
    exact hl
  | b :: l, p, hag, hl => by
    rw [linked_cons] at hl ⊢
    obtain ⟨e, hb, c, hc, t⟩ := hl
    refine ⟨e, hb, c, ?_, ?_⟩
    · rw [hag b (List.mem_cons_self b l)]
      exact hc
    · exact linked_congr h h2 l c.next (fun a ha => hag a (List.mem_cons_of_mem b ha)) t

/-- Appending a cell: the last cell `b` is made to point to `p`, whose `next` is
`NULL`. -/
theorem linked_snoc (h : heap_t) (b p : Nat) (cb cp : task_t)
    (hp : h p = some cp) (hpn : cp.next = 0) (hp0 : p ≠ 0) (hpb : p ≠ b) :
    ∀ (l : List Nat) (p0 : Nat), linked h p0 (l ++ [b]) = true → h b = some cb →
      linked (Function.update h b (some { cb with next := p })) p0 (l ++ [b, p]) = true
  | [], p0, hl, hb => by
    simp only [List.nil_append] at hl ⊢
    rw [linked_cons] at hl
    rw [linked_cons]
    refine ⟨hl.1, hl.2.1, { cb with next := p }, by simp, ?_⟩
    rw [linked_cons]
    refine ⟨rfl, hp0, cp, ?_, ?_⟩
    · rw [Function.update_noteq hpb]
      exact hp
    · rw [linked_nil]
      exact hpn
  | a :: l, p0, hl, hb => by
    have hnd := linked_nodup h _ _ hl
    simp only [List.cons_append] at hl hnd ⊢
    rw [linked_cons] at hl
    rw [linked_cons]
    obtain ⟨e, ha0, c, hc, t⟩ := hl
    have hab : a ≠ b := by
      intro e2
      have := (List.nodup_cons.mp hnd).1
      simp [e2] at this
    refine ⟨e, ha0, c, ?_, linked_snoc h b p cb cp hp hpn hp0 hpb l c.next t hb⟩
    rw [Function.update_noteq hab]
    exact hc

theorem tail_of_nil : tail_of [] = slot.head := rfl

theorem tail_of_snoc (l : List Nat) (a : Nat) : tail_of (l ++ [a]) = slot.link a := by
  simp [tail_of]

theorem ofPtr_ne_zero (p : Nat) (hp : p ≠ 0) : slot.ofPtr p = slot.link p := by
  simp [slot.ofPtr, hp]

theorem payload_update_next (h : heap_t) (a v : Nat) (c : task_t) (hc : h a = some c) (b : Nat) :
    payload (Function.update h a (some { c with next := v })) b = payload h b := by
  unfold payload
  by_cases hab : b = a
  · subst hab
    simp [hc]
  · rw [Function.update_noteq hab]

/-- `__add_task` on a well-formed queue: the task is appended, nothing else
changes. -/
theorem add_task_WF (h : heap_t) (q : task_queue_t) (l : List Nat) (p : Nat) (cp : task_t)
    (hwf : WF h q l) (hp0 : p ≠ 0) (hpl : p ∉ l) (hp : h p = some cp) :
    ∃ h2 q2, __add_task h q p = some (h2, q2) ∧ WF h2 q2 (l ++ [p]) ∧
      q2.block = q.block ∧ (∀ a, payload h2 a = payload h a) ∧
      (∀ a, h2 a = none ↔ h a = none) := by
  obtain ⟨hl, ht⟩ := hwf
  have hh1 : ∀ a ∈ l, Function.update h p (some { cp with next := 0 }) a = h a := by
    intro a ha
    have : a ≠ p := fun e => hpl (e ▸ ha)
    rw [Function.update_noteq this]
  have hl1 := linked_congr h _ l q.head hh1 hl
  have hpay1 := payload_update_next h p 0 cp hp
  rcases List.eq_nil_or_concat l with rfl | ⟨l0, b, rfl⟩
  · refine ⟨Function.update h p (some { cp with next := 0 }),
      { q with head := p, tail := slot.link p }, ?_, ?_, rfl, hpay1, ?_⟩
    · simp [__add_task, ofPtr_ne_zero p hp0, store, hp, ht, tail_of_nil]
    · refine ⟨?_, ?_⟩
      · simp only [List.nil_append]
        rw [linked_cons]
        exact ⟨rfl, hp0, { cp with next := 0 }, by simp, by rw [linked_nil]⟩
      · simp [tail_of]
    · intro a
      by_cases hap : a = p
      · subst hap
        simp [hp]
      · rw [Function.update_noteq hap]
  · have hpb : p ≠ b := by
      intro e
      apply hpl
      simp [e]
    obtain ⟨cb, hcb⟩ := linked_live h _ _ hl b (by simp)
    have hcb1 : Function.update h p (some { cp with next := 0 }) b = some cb := by
      rw [Function.update_noteq (Ne.symm hpb)]
      exact hcb
    refine ⟨Function.update (Function.update h p (some { cp with next := 0 })) b
        (some { cb with next := p }), { q with tail := slot.link p }, ?_, ?_, rfl, ?_, ?_⟩
    · simp only [List.concat_eq_append] at ht
      simp [__add_task, ofPtr_ne_zero p hp0, store, hp, ht, tail_of_snoc, hcb1]
    · refine ⟨?_, ?_⟩
      · simp only [List.concat_eq_append, List.append_assoc, List.singleton_append] at hl1 ⊢
        exact linked_snoc _ b p cb { cp with next := 0 } (by simp) rfl hp0 hpb l0 q.head hl1 hcb1
      · rw [tail_of_snoc]
    · intro a
      rw [payload_update_next _ b p cb hcb1 a, hpay1 a]
    · intro a
      by_cases hab : a = b
      · subst hab
        simp [hcb]
      · rw [Function.update_noteq hab]
        by_cases hap : a = p
        · subst hap
          simp [hp]
        · rw [Function.update_noteq hap]

/-- `__pop_task` on an empty list returns `NULL` and changes nothing. -/
theorem pop_task_nil (h : heap_t) (q : task_queue_t) (hl : linked h q.head [] = true) :
    __pop_task h q = some (0, q) := by
  rw [linked_nil] at hl
  simp [__pop_task, hl]

/-- `__pop_task` on a non-empty list returns its first cell. -/
theorem pop_task_cons (h : heap_t) (q : task_queue_t) (a : Nat) (l : List Nat)
    (hl : linked h q.head (a :: l) = true) :
    ∃ q2, __pop_task h q = some (a, q2) ∧ linked h q2.head l = true ∧
      q2.block = q.block ∧ q2.tail = (if l = [] then slot.head else q.tail) := by
  rw [linked_cons] at hl
  obtain ⟨e, ha0, c, hc, t⟩ := hl
  subst e
  cases l with
  | nil =>
    rw [linked_nil] at t
    refine ⟨{ q with head := c.next, tail := slot.head }, ?_, ?_, rfl, by simp⟩
    · simp [__pop_task, ha0, hc, t]
    · simp [linked, t]
  | cons b l =>
    have t0 := t
    rw [linked_cons] at t
    have hn : c.next ≠ 0 := by omega
    refine ⟨{ q with head := c.next }, ?_, t0, rfl, by simp⟩
    simp [__pop_task, ha0, hc, hn]

theorem tail_of_cons_cons (a b : Nat) (l : List Nat) : tail_of (a :: b :: l) = tail_of (b :: l) := by
  simp [tail_of, List.getLast?_cons_cons]

/-- `__pop_task` keeps a well-formed queue well formed. -/
theorem pop_task_WF (h : heap_t) (q : task_queue_t) (a : Nat) (l : List Nat)
    (hwf : WF h q (a :: l)) :
    ∃ q2, __pop_task h q = some (a, q2) ∧ WF h q2 l ∧ q2.block = q.block := by
  obtain ⟨q2, hpop, hl2, hb, ht⟩ := pop_task_cons h q a l hwf.1
  refine ⟨q2, hpop, ⟨hl2, ?_⟩, hb⟩
  rw [ht]
  cases l with
  | nil => simp [tail_of]
  | cons b l =>
    simp only [reduceCtorEq, if_false]
    rw [hwf.2, tail_of_cons_cons]

/-- Freeing a cell outside a list leaves the list in the heap. -/
theorem linked_free (h : heap_t) (l : List Nat) (p a : Nat) (ha : a ∉ l)
    (hl : linked h p l = true) : linked (Function.update h a none) p l = true := by
  apply linked_congr h _ l p _ hl
  intro b hb
  have : b ≠ a := fun e => ha (e ▸ hb)
  rw [Function.update_noteq this]

theorem free_live (h : heap_t) (a : Nat) (c : task_t) (ha0 : a ≠ 0) (hc : h a = some c) :
    free h a = some (Function.update h a none) := by
  simp [free, ha0, hc]

/-- Successive `__pop_task` calls return the cells of the list in order, then
`NULL`. -/
theorem pops_linked (h : heap_t) : ∀ (l : List Nat) (q : task_queue_t),
    linked h q.head l = true →
    ∃ q2, pops (l.length + 1) h q = some (l ++ [0], q2) ∧ q2.head = 0 ∧ q2.block = q.block
  | [], q, hl => by
    refine ⟨q, ?_, (linked_nil h _).mp hl, rfl⟩
    simp [pops, pop_task_nil h q hl]
  | a :: l, q, hl => by
    obtain ⟨q1, hpop, hl1, hb, _⟩ := pop_task_cons h q a l hl
    obtain ⟨q2, hp2, hh2, hb2⟩ := pops_linked h l q1 hl1
    refine ⟨q2, ?_, hh2, by rw [hb2, hb]⟩
    simp only [List.length_cons, List.cons_append]
    rw [pops, hpop]
    simp only
    rw [hp2]

/-! ## The queue as `__taskqueue_create` builds it -/

theorem store_tail (h : heap_t) (q : task_queue_t) (s : slot) (v : Nat) (h1 : heap_t)
    (q1 : task_queue_t) (hs : store h q s v = some (h1, q1)) : q1.tail = q.tail := by
  cases s with
  | null => simp [store] at hs
  | head =>
    simp only [store, Option.some.injEq, Prod.mk.injEq] at hs
    rw [← hs.2]
  | link a =>
    simp only [store] at hs
    cases hc : h a with
    | none => simp [hc] at hs
    | some c =>
      simp only [hc, Option.some.injEq, Prod.mk.injEq] at hs
      rw [← hs.2]

/-- With `tail = NULL`, `__add_task` faults. -/
theorem add_task_null_tail (h : heap_t) (q : task_queue_t) (p : Nat)
    (ht : q.tail = slot.null) : __add_task h q p = none := by
  simp only [__add_task]
  cases hs : store h q (slot.ofPtr p) 0 with
  | none => rfl
  | some r =>
    obtain ⟨h1, q1⟩ := r
    have hq : q1.tail = slot.null := by rw [store_tail h q _ _ h1 q1 hs, ht]
    simp [hq, store]

/-- C1, evaluated on the code: on the queue `__taskqueue_create` returns, `tail`
is `NULL` (line 60 copies the value of `head`), so the first `__add_task` faults at
the store `*queue->tail = link` whatever task is pushed, and no sequence of pushes
onto a fresh queue can succeed; a first `__pop_task` returns `NULL`. -/
theorem fresh_queue_add_task_faults :
    ∃ q, __taskqueue_create true true true = (some q, []) ∧ q.tail = slot.null ∧
      (∀ (h : heap_t) (p : Nat), __add_task h q p = none) ∧
      (∀ (h : heap_t) (p : Nat) (ps : List Nat), adds h q (p :: ps) = none) ∧
      (∀ h : heap_t, pops 1 h q = some ([0], q)) := by
  refine ⟨{ head := 0, tail := slot.null, block := 1 }, rfl, rfl, ?_, ?_, ?_⟩
  · intro h p
    exact add_task_null_tail h _ p rfl
  · intro h p ps
    simp only [adds]
    rw [add_task_null_tail h _ p rfl]
  · intro h
    simp [pops, __pop_task]

/-- C2, evaluated on the code: right after `__taskqueue_create` the list is empty
and `tail` is `NULL`, not the address of the head slot, and an `__pop_task` on
that queue returns `NULL` without repairing it: the queue is not well formed. -/
theorem fresh_queue_tail_is_null :
    ∃ q, __taskqueue_create true true true = (some q, []) ∧ q.head = 0 ∧
      q.tail = slot.null ∧ q.tail ≠ slot.head ∧
      (∀ h : heap_t, ¬ WF h q []) ∧
      (∀ h : heap_t, __pop_task h q = some (0, q)) := by
  refine ⟨{ head := 0, tail := slot.null, block := 1 }, rfl, rfl, rfl, by decide, ?_, ?_⟩
  · intro h hwf
    have := hwf.2
    simp [tail_of] at this
  · intro h
    simp [__pop_task]

/-! ## Submission after shutdown -/

/-- A worker step leaves `quit` and `thrd_count` alone. -/
theorem wstep_quit (w w1 : world) (pc pc1 : wpc) (hs : wstep w pc = some (pc1, w1)) :
    w1.pool.quit = w.pool.quit := by
  cases pc with
  | top =>
    simp only [wstep] at hs
    split at hs <;> (cases hs; rfl)
  | pop =>
    simp only [wstep] at hs
    cases hp : __pop_task w.heap w.pool.task_queue with
    | none => simp [hp] at hs
    | some r =>
      obtain ⟨t, q1⟩ := r
      simp only [hp] at hs
      split at hs <;> (cases hs; rfl)
  | chk =>
    simp only [wstep] at hs
    split at hs <;> (cases hs; rfl)
  | wait =>
    simp only [wstep] at hs
    cases hs
    rfl
  | got t =>
    simp only [wstep] at hs
    cases hc : w.heap t with
    | none => simp [hc] at hs
    | some c =>
      simp only [hc] at hs
      cases hf : free w.heap t with
      | none => simp [hf] at hs
      | some h1 =>
        simp only [hf] at hs
        cases hs
        rfl
  | handler =>
    simp only [wstep] at hs
    cases hs
    rfl
  | done =>
    simp only [wstep] at hs
    cases hs
    rfl

/-- Once `quit` is `1` it stays `1` under every action. -/
theorem step_quit (s s1 : sys) (a : action) (hs : s.step a = some s1)
    (hq : s.w.pool.quit = 1) : s1.w.pool.quit = 1 := by
  cases a with
  | worker i =>
    simp only [sys.step] at hs
    cases hi : s.thr[i]? with
    | none => simp [hi] at hs
    | some pc =>
      simp only [hi] at hs
      split at hs
      · cases hs
      · cases hw : wstep s.w pc with
        | none => simp [hw] at hs
        | some r =>
          obtain ⟨pc1, w1⟩ := r
          simp only [hw, Option.some.injEq] at hs
          subst hs
          show w1.pool.quit = 1
          rw [wstep_quit s.w w1 pc pc1 hw, hq]
  | wake i =>
    simp only [sys.step] at hs
    split at hs
    · cases hs
      exact hq
    · cases hs
  | terminate =>
    simp only [sys.step, Option.some.injEq] at hs
    subst hs
    rfl

theorem run_quit : ∀ (as : List action) (s s1 : sys), s.run as = some s1 →
    s.w.pool.quit = 1 → s1.w.pool.quit = 1
  | [], s, s1, hr, hq => by
    simp only [sys.run, Option.some.injEq] at hr
    subst hr
    exact hq
  | a :: as, s, s1, hr, hq => by
    simp only [sys.run] at hr
    cases hs : s.step a with
    | none => simp [hs] at hr
    | some s2 =>
      simp only [hs] at hr
      exact run_quit as s2 s1 hr (step_quit s s2 a hs hq)

/-- C3: in every state with `quit = 1`, for every handler, context and `malloc`
result, `thrdpool_post` returns `-1` and the state it leaves is the state it
found: heap, queue (head, tail, block), quit flag and log are unchanged.  The
same holds in every state the pool reaches afterwards, wherever its worker
threads stand. -/
theorem post_after_terminate_rejected (w : world) (func arg p : Nat)
    (hq : w.pool.quit = 1) :
    thrdpool_post w func arg p = some (-1, w) ∧
      ∀ (thr : List wpc) (as : List action) (s2 : sys),
        (sys.mk w thr).run as = some s2 →
          thrdpool_post s2.w func arg p = some (-1, s2.w) := by
  refine ⟨by simp [thrdpool_post, hq], ?_⟩
  intro thr as s2 hr
  have := run_quit as _ s2 hr hq
  simp [thrdpool_post, this]

/-! ## Shutdown signal -/

/-- C8: `thrdpool_terminate` leaves `quit = 1` and `block = 0`, keeps head, tail,
heap and log, and a second call changes nothing, with or without the broadcast;
likewise `__nonblock` sets `block = 0`, keeps head and tail and is idempotent. -/
theorem terminate_sets_flags_idempotent (w : world) (q : task_queue_t) (s : sys) :
    (thrdpool_terminate w).pool.quit = 1 ∧
    (thrdpool_terminate w).pool.task_queue.block = 0 ∧
    (thrdpool_terminate w).pool.task_queue.head = w.pool.task_queue.head ∧
    (thrdpool_terminate w).pool.task_queue.tail = w.pool.task_queue.tail ∧
    (thrdpool_terminate w).heap = w.heap ∧
    (thrdpool_terminate w).log = w.log ∧
    (thrdpool_terminate w).pool.thrd_count = w.pool.thrd_count ∧
    thrdpool_terminate (thrdpool_terminate w) = thrdpool_terminate w ∧
    s.terminate.terminate = s.terminate ∧
    (__nonblock q).block = 0 ∧ (__nonblock q).head = q.head ∧
    (__nonblock q).tail = q.tail ∧ __nonblock (__nonblock q) = __nonblock q := by
  refine ⟨rfl, rfl, rfl, rfl, rfl, rfl, rfl, rfl, ?_, rfl, rfl, rfl, rfl⟩
  have hb : broadcast (broadcast s.thr) = broadcast s.thr := by
    unfold broadcast
    rw [List.map_map]
    apply List.map_congr_left
    intro pc _
    by_cases hpc : pc = wpc.wait
    · simp [hpc]
    · simp [hpc]
  show sys.mk (thrdpool_terminate (thrdpool_terminate s.w)) (broadcast (broadcast s.thr)) =
    sys.mk (thrdpool_terminate s.w) (broadcast s.thr)
  rw [hb]
  rfl

/-! ## Blocking pop -/

/-- `__get_task` on a non-empty list returns its first cell, whatever `block` is. -/
theorem get_task_cons (h : heap_t) (q : task_queue_t) (a : Nat) (l : List Nat)
    (hl : linked h q.head (a :: l) = true) :
    ∃ q2, __get_task h q = some (get_result.task a, q2) ∧ linked h q2.head l = true ∧
      q2.block = q.block ∧ q2.tail = (if l = [] then slot.head else q.tail) := by
  obtain ⟨q2, hpop, hl2, hb, ht⟩ := pop_task_cons h q a l hl
  have ha0 : a ≠ 0 := linked_ne_zero h _ _ hl a (by simp)
  refine ⟨q2, ?_, hl2, hb, ht⟩
  simp [__get_task, hpop, ha0]

/-- `__get_task` on an empty list: `NULL` when `block` is `0`, the wait otherwise. -/
theorem get_task_nil (h : heap_t) (q : task_queue_t) (hh : q.head = 0) :
    __get_task h q =
      some (if q.block = 0 then get_result.no_more_work else get_result.wait, q) := by
  have hp : __pop_task h q = some (0, q) := by simp [__pop_task, hh]
  by_cases hb : q.block = 0 <;> simp [__get_task, hp, hb]

/-- After `block` is `0`, the tasks of the list are returned in order, then
`NULL`. -/
theorem gets_linked (h : heap_t) : ∀ (l : List Nat) (q : task_queue_t),
    linked h q.head l = true → q.block = 0 →
    ∃ q2, gets (l.length + 1) h q =
        some (l.map get_result.task ++ [get_result.no_more_work], q2) ∧ q2.head = 0
  | [], q, hl, hb => by
    have hh := (linked_nil h _).mp hl
    refine ⟨q, ?_, hh⟩
    simp [gets, get_task_nil h q hh, hb]
  | a :: l, q, hl, hb => by
    obtain ⟨q1, hget, hl1, hb1, _⟩ := get_task_cons h q a l hl
    obtain ⟨q2, hg2, hh2⟩ := gets_linked h l q1 hl1 (by rw [hb1, hb])
    refine ⟨q2, ?_, hh2⟩
    simp only [List.length_cons, List.map_cons, List.cons_append]
    rw [gets, hget]
    simp only
    rw [hg2]

/-- C9: on a queue whose list is `l`, `__get_task` returns the head task when `l`
is not empty, whatever `block` is; on an empty queue it returns "no more work"
when `block = 0` and waits when `block` is not `0`; it returns "no more work" only
from an empty queue with `block = 0`; and after `__nonblock` the next
`l.length` calls return the tasks of `l` in order and the call after them is the
first to return "no more work". -/
theorem get_task_delivers_before_shutdown (h : heap_t) (q : task_queue_t) (l : List Nat)
    (hl : linked h q.head l = true) :
    (∀ a l2, l = a :: l2 →
      ∃ q2, __get_task h q = some (get_result.task a, q2) ∧ linked h q2.head l2 = true ∧
        q2.block = q.block) ∧
    (l = [] → q.block = 0 → __get_task h q = some (get_result.no_more_work, q)) ∧
    (l = [] → q.block ≠ 0 → __get_task h q = some (get_result.wait, q)) ∧
    (∀ q2, __get_task h q = some (get_result.no_more_work, q2) → l = [] ∧ q.block = 0) ∧
    (∃ q2, gets (l.length + 1) h (__nonblock q) =
        some (l.map get_result.task ++ [get_result.no_more_work], q2) ∧ q2.head = 0) := by
  refine ⟨?_, ?_, ?_, ?_, ?_⟩
  · intro a l2 e
    subst e
    obtain ⟨q2, hg, hl2, hb, _⟩ := get_task_cons h q a l2 hl
    exact ⟨q2, hg, hl2, hb⟩
  · intro e hb
    subst e
    rw [get_task_nil h q ((linked_nil h _).mp hl)]
    simp [hb]
  · intro e hb
    subst e
    rw [get_task_nil h q ((linked_nil h _).mp hl)]
    simp [hb]
  · intro q2 hg
    cases l with
    | nil =>
      rw [get_task_nil h q ((linked_nil h _).mp hl)] at hg
      by_cases hb : q.block = 0
      · exact ⟨rfl, hb⟩
      · simp [hb] at hg
    | cons a l2 =>
      obtain ⟨q3, hg3, _⟩ := get_task_cons h q a l2 hl
      rw [hg3] at hg
      simp at hg
  · exact gets_linked h l (__nonblock q) hl rfl

/-- C9 at a concrete queue: `A` then `B` linked, `block = 1`. -/
theorem get_task_delivers_before_shutdown_witness :
    linked heap_AB queue_AB.head [1, 2] = true ∧
    (∃ q2, __get_task heap_AB queue_AB = some (get_result.task 1, q2) ∧
        linked heap_AB q2.head [2] = true ∧ q2.block = queue_AB.block) ∧
    (∃ q2, gets 3 heap_AB (__nonblock queue_AB) =
        some ([get_result.task 1, get_result.task 2, get_result.no_more_work], q2) ∧
        q2.head = 0) :=
  ⟨by decide,
   (get_task_delivers_before_shutdown heap_AB queue_AB [1, 2] (by decide)).1 1 [2] rfl,
   (get_task_delivers_before_shutdown heap_AB queue_AB [1, 2] (by decide)).2.2.2.2⟩

/-- C3 at a concrete state: the pool with `A` and `B` queued, after
`thrdpool_terminate`. -/
theorem post_after_terminate_rejected_witness :
    (thrdpool_terminate world_AB).pool.quit = 1 ∧
    thrdpool_post (thrdpool_terminate world_AB) 30 31 3 =
      some (-1, thrdpool_terminate world_AB) :=
  ⟨rfl, (post_after_terminate_rejected (thrdpool_terminate world_AB) 30 31 3 rfl).1⟩

/-! ## Destruction -/

theorem calls_append (l1 l2 : List event) : calls (l1 ++ l2) = calls l1 ++ calls l2 := by
  simp [calls, List.filterMap_append]

theorem frees_append (l1 l2 : List event) : frees (l1 ++ l2) = frees l1 ++ frees l2 := by
  simp [frees, List.filterMap_append]

theorem calls_map_free (l : List Nat) : calls (l.map event.free) = [] := by
  induction l with
  | nil => rfl
  | cons a l ih =>
    simp only [calls, List.map_cons, List.filterMap_cons] at ih ⊢
    exact ih

theorem frees_map_free (l : List Nat) : frees (l.map event.free) = l := by
  induction l with
  | nil => rfl
  | cons a l ih =>
    simp only [frees, List.map_cons, List.filterMap_cons] at ih ⊢
    rw [ih]

theorem calls_joins (n : Int) : calls (joins n) = [] := by
  unfold joins
  induction List.range n.toNat with
  | nil => rfl
  | cons a l ih =>
    simp only [calls, List.map_cons, List.filterMap_cons] at ih ⊢
    exact ih

theorem frees_joins (n : Int) : frees (joins n) = [] := by
  unfold joins
  induction List.range n.toNat with
  | nil => rfl
  | cons a l ih =>
    simp only [frees, List.map_cons, List.filterMap_cons] at ih ⊢
    exact ih

/-- `__taskqueue_destroy` pops and frees the cells of the list in order and ends
with an empty queue. -/
theorem destroy_linked : ∀ (l : List Nat) (fuel : Nat) (h : heap_t) (q : task_queue_t)
    (log : List event), linked h q.head l = true → l.length < fuel →
    ∃ h2 q2, __taskqueue_destroy fuel h q log =
        some (h2, q2, log ++ l.map event.free ++ [event.queue_freed]) ∧
      q2.head = 0 ∧ q2.block = q.block ∧ (∀ a ∈ l, h2 a = none) ∧ (∀ a, a ∉ l → h2 a = h a)
  | [], fuel, h, q, log, hl, hf => by
    obtain ⟨f, rfl⟩ : ∃ f, fuel = f + 1 := ⟨fuel - 1, by simp at hf; omega⟩
    refine ⟨h, q, ?_, (linked_nil h _).mp hl, rfl, by simp, fun _ _ => rfl⟩
    simp [__taskqueue_destroy, pop_task_nil h q hl]
  | a :: l, fuel, h, q, log, hl, hf => by
    obtain ⟨f, rfl⟩ : ∃ f, fuel = f + 1 := ⟨fuel - 1, by simp at hf; omega⟩
    have hnd := linked_nodup h _ _ hl
    have hal : a ∉ l := (List.nodup_cons.mp hnd).1
    have ha0 : a ≠ 0 := linked_ne_zero h _ _ hl a (by simp)
    obtain ⟨c, hc⟩ := linked_live h _ _ hl a (by simp)
    obtain ⟨q1, hpop, hl1, hb1, _⟩ := pop_task_cons h q a l hl
    have hl2 := linked_free h l q1.head a hal hl1
    obtain ⟨h2, q2, hd, hh2, hb2, hdead, hrest⟩ :=
      destroy_linked l f (Function.update h a none) q1 (log ++ [event.free a]) hl2
        (by simp at hf; omega)
    refine ⟨h2, q2, ?_, hh2, by rw [hb2, hb1], ?_, ?_⟩
    · rw [__taskqueue_destroy, hpop]
      simp only [ha0, if_false, free_live h a c ha0 hc]
      rw [hd]
      simp
    · intro b hb
      rcases List.mem_cons.mp hb with rfl | hb2
      · rw [hrest b hal]
        simp
      · exact hdead b hb2
    · intro b hb
      have hbl : b ∉ l := fun hm => hb (List.mem_cons_of_mem a hm)
      have hba : b ≠ a := fun e => hb (by simp [e])
      rw [hrest b hbl, Function.update_noteq hba]

/-- `thrdpool_waitdone` on a queue whose list is `l`. -/
theorem waitdone_linked (w : world) (l : List Nat) (fuel : Nat)
    (hl : linked w.heap w.pool.task_queue.head l = true) (hf : l.length < fuel) :
    ∃ w2, thrdpool_waitdone fuel w = some w2 ∧
      w2.log = w.log ++ joins w.pool.thrd_count ++ l.map event.free ++
        [event.queue_freed, event.threads_freed, event.pool_freed] ∧
      calls w2.log = calls w.log ∧ frees w2.log = frees w.log ++ l ∧
      w2.pool.task_queue.head = 0 ∧ (∀ a ∈ l, w2.heap a = none) ∧
      (∀ a, a ∉ l → w2.heap a = w.heap a) := by
  obtain ⟨h2, q2, hd, hh, _, hdead, hrest⟩ :=
    destroy_linked l fuel w.heap w.pool.task_queue (w.log ++ joins w.pool.thrd_count) hl hf
  refine ⟨_, by rw [thrdpool_waitdone, hd], ?_, ?_, ?_, hh, hdead, hrest⟩
  · simp
  · have h1 : calls [event.queue_freed] = [] := rfl
    have h2 : calls [event.threads_freed, event.pool_freed] = [] := rfl
    simp only [calls_append, calls_map_free, calls_joins, h1, h2, List.append_nil]
  · have h1 : frees [event.queue_freed] = [] := rfl
    have h2 : frees [event.threads_freed, event.pool_freed] = [] := rfl
    simp only [frees_append, frees_map_free, frees_joins, h1, h2, List.append_nil]

/-- C6: whatever tasks `l` are still linked, `__taskqueue_destroy`, and so
`thrdpool_waitdone` after its joins, returns; it frees every task of `l` once, in
order, and nothing else; it calls no handler, so the handler calls in the log are
the same before and after; the queue ends empty and the cells of `l` are dead. -/
theorem destroy_discards_without_running (w : world) (l : List Nat) (fuel : Nat)
    (hl : linked w.heap w.pool.task_queue.head l = true) (hf : l.length < fuel) :
    (∃ h2 q2, __taskqueue_destroy fuel w.heap w.pool.task_queue w.log =
        some (h2, q2, w.log ++ l.map event.free ++ [event.queue_freed]) ∧ q2.head = 0) ∧
    ∃ w2, thrdpool_waitdone fuel w = some w2 ∧
      w2.log = w.log ++ joins w.pool.thrd_count ++ l.map event.free ++
        [event.queue_freed, event.threads_freed, event.pool_freed] ∧
      calls w2.log = calls w.log ∧ frees w2.log = frees w.log ++ l ∧ l.Nodup ∧
      w2.pool.task_queue.head = 0 ∧ (∀ a ∈ l, w2.heap a = none) ∧
      (∀ a, a ∉ l → w2.heap a = w.heap a) := by
  constructor
  · obtain ⟨h2, q2, hd, hh, _⟩ := destroy_linked l fuel w.heap w.pool.task_queue w.log hl hf
    exact ⟨h2, q2, hd, hh⟩
  · obtain ⟨w2, hwd, hlog, hc, hfr, hh, hdead, hrest⟩ := waitdone_linked w l fuel hl hf
    exact ⟨w2, hwd, hlog, hc, hfr, linked_nodup _ _ _ hl, hh, hdead, hrest⟩

/-- C6 at a concrete state: `A` and `B` still linked when `thrdpool_waitdone`
runs. -/
theorem destroy_discards_without_running_witness :
    linked world_AB.heap world_AB.pool.task_queue.head [1, 2] = true ∧
    ∃ w2, thrdpool_waitdone 3 world_AB = some w2 ∧
      w2.log = world_AB.log ++ joins world_AB.pool.thrd_count ++ [1, 2].map event.free ++
        [event.queue_freed, event.threads_freed, event.pool_freed] ∧
      calls w2.log = calls world_AB.log ∧ frees w2.log = frees world_AB.log ++ [1, 2] ∧
      [1, 2].Nodup ∧ w2.pool.task_queue.head = 0 ∧ (∀ a ∈ [1, 2], w2.heap a = none) ∧
      (∀ a, a ∉ [1, 2] → w2.heap a = world_AB.heap a) :=
  ⟨by decide, (destroy_discards_without_running world_AB [1, 2] 3 (by decide) (by decide)).2⟩

/-! ## Worker loop -/

theorem runs_nil (h : heap_t) : runs h [] = [] := rfl

theorem runs_cons (h : heap_t) (a : Nat) (l : List Nat) (c : task_t) (hc : h a = some c) :
    runs h (a :: l) = [event.free a, event.call c.func c.arg] ++ runs h l := by
  simp [runs, payload, hc]

theorem runs_append (h : heap_t) (l1 l2 : List Nat) :
    runs h (l1 ++ l2) = runs h l1 ++ runs h l2 := by
  simp [runs, List.flatMap_append]

theorem runs_congr (h h2 : heap_t) (l : List Nat) (hp : ∀ a ∈ l, payload h2 a = payload h a) :
    runs h2 l = runs h l := by
  induction l with
  | nil => rfl
  | cons a l ih =>
    have e1 : runs h2 (a :: l) = runs h2 [a] ++ runs h2 l := runs_append h2 [a] l
    have e2 : runs h (a :: l) = runs h [a] ++ runs h l := runs_append h [a] l
    rw [e1, e2, ih (fun b hb => hp b (List.mem_cons_of_mem a hb))]
    have : runs h2 [a] = runs h [a] := by
      simp [runs, hp a (List.mem_cons_self a l)]
    rw [this]

/-- One iteration on a non-empty queue with `quit = 0`: the head task is popped,
freed, and its handler called on its context. -/
theorem worker_iter_cons (w : world) (a : Nat) (l : List Nat) (c : task_t)
    (hq : w.pool.quit = 0) (hl : linked w.heap w.pool.task_queue.head (a :: l) = true)
    (hc : w.heap a = some c) :
    ∃ q2, worker_iter w = some (iter_result.ran,
        { heap := Function.update w.heap a none, pool := { w.pool with task_queue := q2 },
          log := w.log ++ [event.free a, event.call c.func c.arg] }) ∧
      linked w.heap q2.head l = true ∧ q2.block = w.pool.task_queue.block ∧
      q2.tail = (if l = [] then slot.head else w.pool.task_queue.tail) := by
  obtain ⟨q2, hg, hl2, hb, ht⟩ := get_task_cons w.heap w.pool.task_queue a l hl
  have ha0 : a ≠ 0 := linked_ne_zero _ _ _ hl a (by simp)
  refine ⟨q2, ?_, hl2, hb, ht⟩
  simp [worker_iter, hq, hg, hc, free_live w.heap a c ha0 hc]

/-- A worker alone on a well-formed queue with `quit = 0` runs the tasks of the
list in order. -/
theorem worker_iters_linked : ∀ (l : List Nat) (w : world), w.pool.quit = 0 →
    WF w.heap w.pool.task_queue l →
    ∃ w2, worker_iters l.length w = some (iter_result.ran, w2) ∧
      w2.log = w.log ++ runs w.heap l ∧ WF w2.heap w2.pool.task_queue [] ∧
      w2.pool.quit = 0 ∧ w2.pool.task_queue.block = w.pool.task_queue.block ∧
      (∀ a ∈ l, w2.heap a = none) ∧ (∀ a, a ∉ l → w2.heap a = w.heap a)
  | [], w, hq, hwf => ⟨w, rfl, by simp [runs_nil], hwf, hq, rfl, by simp, fun _ _ => rfl⟩
  | a :: l, w, hq, hwf => by
    have hnd := linked_nodup _ _ _ hwf.1
    have hal : a ∉ l := (List.nodup_cons.mp hnd).1
    obtain ⟨c, hc⟩ := linked_live _ _ _ hwf.1 a (by simp)
    obtain ⟨q2, hit, hl2, hb, ht⟩ := worker_iter_cons w a l c hq hwf.1 hc
    have hwf1 : WF (Function.update w.heap a none) q2 l := by
      refine ⟨linked_free _ l _ a hal hl2, ?_⟩
      rw [ht]
      cases l with
      | nil => simp [tail_of]
      | cons b l2 =>
        simp only [reduceCtorEq, if_false]
        rw [hwf.2, tail_of_cons_cons]
    obtain ⟨w2, hits, hlog, hwf2, hq2, hb2, hdead, hrest⟩ :=
      worker_iters_linked l
        { heap := Function.update w.heap a none, pool := { w.pool with task_queue := q2 },
          log := w.log ++ [event.free a, event.call c.func c.arg] } hq hwf1
    refine ⟨w2, ?_, ?_, hwf2, hq2, by rw [hb2]; exact hb, ?_, ?_⟩
    · simp only [List.length_cons, worker_iters, hit]
      exact hits
    · rw [hlog, runs_cons w.heap a l c hc]
      simp only [List.append_assoc]
      congr 2
      apply runs_congr
      intro b hb
      have hba : b ≠ a := fun e => hal (e ▸ hb)
      simp [payload, Function.update_noteq hba]
    · intro b hb
      rcases List.mem_cons.mp hb with rfl | hb2
      · rw [hrest b hal]
        simp
      · exact hdead b hb2
    · intro b hb
      have hbl : b ∉ l := fun hm => hb (List.mem_cons_of_mem a hm)
      have hba : b ≠ a := fun e => hb (by simp [e])
      rw [hrest b hbl]
      simp [Function.update_noteq hba]

/-- `thrdpool_post` on a running pool with a well-formed queue: the task is
appended with the handler and the context given. -/
theorem post_WF (w : world) (l : List Nat) (func arg p : Nat)
    (hwf : WF w.heap w.pool.task_queue l) (hq : w.pool.quit ≠ 1) (hp0 : p ≠ 0)
    (hfresh : w.heap p = none) :
    ∃ w1, thrdpool_post w func arg p = some (0, w1) ∧
      WF w1.heap w1.pool.task_queue (l ++ [p]) ∧ payload w1.heap p = some (func, arg) ∧
      (∀ a, a ≠ p → payload w1.heap a = payload w.heap a) ∧ w1.log = w.log ∧
      w1.pool.quit = w.pool.quit ∧ w1.pool.task_queue.block = w.pool.task_queue.block := by
  have hpl : p ∉ l := by
    intro hm
    obtain ⟨c, hc⟩ := linked_live _ _ _ hwf.1 p hm
    rw [hfresh] at hc
    cases hc
  have hwf1 : WF (Function.update w.heap p (some { next := 0, func := func, arg := arg }))
      w.pool.task_queue l := by
    refine ⟨linked_congr w.heap _ l _ ?_ hwf.1, hwf.2⟩
    intro a ha
    have : a ≠ p := fun e => hpl (e ▸ ha)
    rw [Function.update_noteq this]
  obtain ⟨h2, q2, hadd, hwf2, hb, hpay, _⟩ :=
    add_task_WF _ w.pool.task_queue l p { next := 0, func := func, arg := arg } hwf1 hp0 hpl
      (by simp)
  refine ⟨{ w with heap := h2, pool := { w.pool with task_queue := q2 } }, ?_, hwf2, ?_, ?_,
    rfl, rfl, hb⟩
  · simp [thrdpool_post, hq, hp0, hadd]
  · rw [hpay p]
    simp [payload]
  · intro a ha
    rw [hpay a]
    simp [payload, Function.update_noteq ha]

theorem store_payload (h : heap_t) (q : task_queue_t) (s : slot) (v : Nat) (h1 : heap_t)
    (q1 : task_queue_t) (hs : store h q s v = some (h1, q1)) (b : Nat) :
    payload h1 b = payload h b := by
  cases s with
  | null => simp [store] at hs
  | head =>
    simp only [store, Option.some.injEq, Prod.mk.injEq] at hs
    rw [← hs.1]
  | link a =>
    simp only [store] at hs
    cases hc : h a with
    | none => simp [hc] at hs
    | some c =>
      simp only [hc, Option.some.injEq, Prod.mk.injEq] at hs
      rw [← hs.1]
      exact payload_update_next h a v c hc b

/-- `__add_task` changes no handler and no context. -/
theorem add_task_payload (h : heap_t) (q : task_queue_t) (t : Nat) (h2 : heap_t)
    (q2 : task_queue_t) (ha : __add_task h q t = some (h2, q2)) (b : Nat) :
    payload h2 b = payload h b := by
  simp only [__add_task] at ha
  cases hs1 : store h q (slot.ofPtr t) 0 with
  | none => simp [hs1] at ha
  | some r1 =>
    obtain ⟨h1, q1⟩ := r1
    simp only [hs1] at ha
    cases hs2 : store h1 q1 q1.tail t with
    | none => simp [hs2] at ha
    | some r2 =>
      obtain ⟨h3, q3⟩ := r2
      simp only [hs2, Option.some.injEq, Prod.mk.injEq] at ha
      rw [← ha.1, store_payload h1 q1 _ _ h3 q3 hs2 b, store_payload h q _ _ h1 q1 hs1 b]

/-- A successful `thrdpool_post` stores the handler and the context in the new
cell and changes those of no other cell. -/
theorem post_payload (w w1 : world) (func arg p : Nat) (r : Int)
    (hp : thrdpool_post w func arg p = some (r, w1)) (hr : r = 0) :
    payload w1.heap p = some (func, arg) ∧ ∀ b, b ≠ p → payload w1.heap b = payload w.heap b := by
  unfold thrdpool_post at hp
  split at hp
  · simp only [Option.some.injEq, Prod.mk.injEq] at hp
    omega
  · split at hp
    · cases hp
    · cases ha : __add_task (Function.update w.heap p (some { next := 0, func := func, arg := arg }))
          w.pool.task_queue p with
      | none => simp [ha] at hp
      | some r2 =>
        obtain ⟨h2, q2⟩ := r2
        simp only [ha, Option.some.injEq, Prod.mk.injEq] at hp
        obtain ⟨_, rfl⟩ := hp
        constructor
        · show payload h2 p = some (func, arg)
          rw [add_task_payload _ _ _ _ _ ha p]
          simp [payload]
        · intro b hb
          show payload h2 b = payload w.heap b
          rw [add_task_payload _ _ _ _ _ ha b]
          simp [payload, Function.update_noteq hb]

/-- One iteration with `quit = 0` on a queue whose head cell is live, whatever
`tail` is. -/
theorem worker_iter_head (w : world) (c : task_t) (hq : w.pool.quit = 0)
    (hh : w.pool.task_queue.head ≠ 0) (hc : w.heap w.pool.task_queue.head = some c) :
    worker_iter w = some (iter_result.ran,
      { heap := Function.update w.heap w.pool.task_queue.head none,
        pool := { w.pool with task_queue :=
          { head := c.next,
            tail := if c.next = 0 then slot.head else w.pool.task_queue.tail,
            block := w.pool.task_queue.block } },
        log := w.log ++ [event.free w.pool.task_queue.head, event.call c.func c.arg] }) := by
  have hpop : __pop_task w.heap w.pool.task_queue =
      some (w.pool.task_queue.head,
        { head := c.next, tail := if c.next = 0 then slot.head else w.pool.task_queue.tail,
          block := w.pool.task_queue.block }) := by
    by_cases hn : c.next = 0 <;> simp [__pop_task, hh, hc, hn]
  rw [worker_iter, if_pos hq, __get_task, hpop]
  simp only [hh, if_false, hc, free_live w.heap _ c hh hc]

/-- C10: one iteration of the worker loop, in every state of the pool, the one
`thrdpool_create` leaves (`tail = NULL`) included.  With `quit` set the worker
exits and the state is unchanged: nothing is popped.  With `quit = 0` it calls
`__get_task`: on an empty queue it exits when `block = 0` and waits when `block`
is not `0`, the state unchanged; on a queue whose head cell is live it removes
that task, frees it, and then calls its handler on its context, once: the log
grows by `free task, call func ctx`.  A successful `thrdpool_post` stores the
handler and the context it was given in the new cell and touches those of no
other cell; and on a well-formed queue holding `l`, a task posted with `func`
and `arg` is run after the tasks of `l` as `func(arg)`. -/
theorem worker_loop_step (w : world) :
    (w.pool.quit ≠ 0 → worker_iter w = some (iter_result.exit, w)) ∧
    (w.pool.quit = 0 → w.pool.task_queue.head = 0 → w.pool.task_queue.block = 0 →
      worker_iter w = some (iter_result.exit, w)) ∧
    (w.pool.quit = 0 → w.pool.task_queue.head = 0 → w.pool.task_queue.block ≠ 0 →
      worker_iter w = some (iter_result.wait, w)) ∧
    (w.pool.quit = 0 → w.pool.task_queue.head ≠ 0 →
      ∀ c, w.heap w.pool.task_queue.head = some c →
        worker_iter w = some (iter_result.ran,
          { heap := Function.update w.heap w.pool.task_queue.head none,
            pool := { w.pool with task_queue :=
              { head := c.next,
                tail := if c.next = 0 then slot.head else w.pool.task_queue.tail,
                block := w.pool.task_queue.block } },
            log := w.log ++ [event.free w.pool.task_queue.head, event.call c.func c.arg] })) ∧
    (w.pool.quit = 0 → ∀ a l2, linked w.heap w.pool.task_queue.head (a :: l2) = true →
      ∃ c w2, w.heap a = some c ∧ worker_iter w = some (iter_result.ran, w2) ∧
        w2.log = w.log ++ [event.free a, event.call c.func c.arg] ∧
        calls w2.log = calls w.log ++ [(c.func, c.arg)] ∧
        w2.heap a = none ∧ a ∉ l2 ∧ linked w2.heap w2.pool.task_queue.head l2 = true ∧
        w2.pool.quit = 0) ∧
    (∀ (func arg p : Nat) (r : Int) (w1 : world),
      thrdpool_post w func arg p = some (r, w1) → r = 0 →
        payload w1.heap p = some (func, arg) ∧
        ∀ b, b ≠ p → payload w1.heap b = payload w.heap b) ∧
    (∀ (l : List Nat) (func arg p : Nat), WF w.heap w.pool.task_queue l →
      w.pool.quit = 0 → p ≠ 0 → w.heap p = none →
      ∃ w1, thrdpool_post w func arg p = some (0, w1) ∧
        WF w1.heap w1.pool.task_queue (l ++ [p]) ∧
        ∃ w2, worker_iters (l.length + 1) w1 = some (iter_result.ran, w2) ∧
          w2.log = w.log ++ runs w.heap l ++ [event.free p, event.call func arg] ∧
          calls w2.log = calls (w.log ++ runs w.heap l) ++ [(func, arg)]) := by
  refine ⟨?_, ?_, ?_, ?_, ?_, ?_, ?_⟩
  · intro hq
    simp [worker_iter, hq]
  · intro hq hh hb
    rw [worker_iter, if_pos hq, get_task_nil w.heap _ hh]
    simp [hb]
  · intro hq hh hb
    rw [worker_iter, if_pos hq, get_task_nil w.heap _ hh]
    simp [hb]
  · intro hq hh c hc
    exact worker_iter_head w c hq hh hc
  · intro hq a l2 hl
    have hnd := linked_nodup _ _ _ hl
    have hal : a ∉ l2 := (List.nodup_cons.mp hnd).1
    obtain ⟨c, hc⟩ := linked_live _ _ _ hl a (by simp)
    obtain ⟨q2, hit, hl2, _, _⟩ := worker_iter_cons w a l2 c hq hl hc
    refine ⟨c, _, hc, hit, rfl, ?_, by simp, hal, linked_free _ l2 _ a hal hl2, hq⟩
    show calls (w.log ++ [event.free a, event.call c.func c.arg]) = _
    rw [calls_append]
    rfl
  · intro func arg p r w1 hp hr
    exact post_payload w w1 func arg p r hp hr
  · intro l func arg p hwf hq hp0 hfresh
    have hpl : p ∉ l := by
      intro hm
      obtain ⟨c, hc⟩ := linked_live _ _ _ hwf.1 p hm
      rw [hfresh] at hc
      cases hc
    obtain ⟨w1, hpost, hwf1, hpp, hpay, hlog, hq1, _⟩ :=
      post_WF w l func arg p hwf (by rw [hq]; decide) hp0 hfresh
    obtain ⟨w2, hits, hlog2, _⟩ := worker_iters_linked (l ++ [p]) w1 (by rw [hq1, hq]) hwf1
    have hruns : runs w1.heap (l ++ [p]) =
        runs w.heap l ++ [event.free p, event.call func arg] := by
      rw [runs_append]
      congr 1
      · apply runs_congr
        intro a ha
        exact hpay a (fun e => hpl (e ▸ ha))
      · simp [runs, hpp]
    refine ⟨w1, hpost, hwf1, w2, by simpa using hits, ?_, ?_⟩
    · rw [hlog2, hlog, hruns, List.append_assoc]
    · rw [hlog2, hlog, hruns, ← List.append_assoc, calls_append]
      rfl

/-- C10 at concrete states: the pool as `thrdpool_create(1)` leaves it, where
the worker finds the queue empty and waits; the same pool after
`thrdpool_terminate`, where it exits; and a pool with `A` and `B` queued, where
it frees `A` and calls handler 10 on context 11, and where a task posted with
handler 30 and context 31 is run third. -/
theorem worker_loop_step_witness :
    thrdpool_create env_ok 0 heap_empty 1 = some (some world_created.pool, world_created.log) ∧
    worker_iter world_created = some (iter_result.wait, world_created) ∧
    worker_iter (thrdpool_terminate world_created) =
      some (iter_result.exit, thrdpool_terminate world_created) ∧
    worker_iter world_AB = some (iter_result.ran,
      { heap := Function.update world_AB.heap 1 none,
        pool := { world_AB.pool with task_queue := { head := 2, tail := slot.link 2, block := 1 } },
        log := [event.free 1, event.call 10 11] }) ∧
    (∃ w1, thrdpool_post world_AB 30 31 3 = some (0, w1) ∧
        WF w1.heap w1.pool.task_queue ([1, 2] ++ [3]) ∧
        ∃ w2, worker_iters 3 w1 = some (iter_result.ran, w2) ∧
          w2.log = world_AB.log ++ runs world_AB.heap [1, 2] ++
            [event.free 3, event.call 30 31] ∧
          calls w2.log = calls (world_AB.log ++ runs world_AB.heap [1, 2]) ++ [(30, 31)]) :=
  ⟨by decide,
   (worker_loop_step world_created).2.2.1 rfl rfl (by decide),
   (worker_loop_step (thrdpool_terminate world_created)).1 (by decide),
   (worker_loop_step world_AB).2.2.2.1 rfl (by decide) { next := 2, func := 10, arg := 11 } rfl,
   (worker_loop_step world_AB).2.2.2.2.2.2 [1, 2] 30 31 3 (by decide) rfl (by decide) rfl⟩

/-! ## Creation -/

/-- The spawn loop stops at the first `pthread_create` that fails, or at
`thrd_count`. -/
theorem spawn_loop_eq (spawn : Nat → Bool) (n k : Nat) (hkn : k ≤ n)
    (hfirst : ∀ j, j < k → spawn j = true) (hfail : k < n → spawn k = false) :
    ∀ (fuel i : Nat), i ≤ k → n ≤ i + fuel → spawn_loop spawn n fuel i = k
  | 0, i, hik, hfu => by
    simp only [spawn_loop]
    omega
  | fuel + 1, i, hik, hfu => by
    simp only [spawn_loop]
    by_cases hin : i < n
    · rw [if_pos hin]
      by_cases hk : i < k
      · rw [if_pos (hfirst i hk)]
        exact spawn_loop_eq spawn n k hkn hfirst hfail fuel (i + 1) (by omega) (by omega)
      · have e : i = k := by omega
        subst e
        simp [hfail hin]
    · rw [if_neg hin]
      omega

theorem size_t_of_int_natCast (n : Nat) (hn : n < 2 ^ 31) : size_t_of_int (n : Int) = n := by
  unfold size_t_of_int
  have h1 : ((n : Int)) % 2 ^ 64 = (n : Int) := by
    apply Int.emod_eq_of_lt
    · omega
    · have : (n : Int) < 2 ^ 31 := by exact_mod_cast hn
      omega
  rw [h1]
  simp

theorem joins_natCast (k : Nat) : joins (k : Int) = (List.range k).map event.join := by
  simp [joins]

/-- C7: with the allocations of the pool, the queue and the thread array
granted, for every requested `n` and every `k ≤ n` such that the first `k`
`pthread_create` calls succeed: if `k < n` and the next one fails, then
`__threads_create` records `thrd_count = k`, sets `quit = 1` and `block = 0`,
joins the threads `0 .. k-1` and no other, frees the array and returns `-1`, and
`thrdpool_create` destroys the queue, frees the pool and returns `NULL`; if
`k = n`, `thrdpool_create` returns a pool with `thrd_count = n`, `quit = 0`,
`block = 1` and no task linked. -/
theorem create_failure_unwound (e : env) (h : heap_t) (n k fuel : Nat) (hn : n < 2 ^ 31)
    (hpool : e.malloc_pool = true) (hqueue : e.malloc_queue = true)
    (hmutex : e.mutex_init = true) (hcond : e.cond_init = true) (hattr : e.attr_init = 0)
    (hthreads : e.malloc_threads = true) (hkn : k ≤ n)
    (hfirst : ∀ i, i < k → e.spawn i = true) :
    (k < n → e.spawn k = false →
      (∀ w : world, ∃ w2, __threads_create e w n = (-1, w2) ∧
        w2.pool.thrd_count = k ∧ w2.pool.quit = 1 ∧ w2.pool.task_queue.block = 0 ∧
        w2.pool.task_queue.head = w.pool.task_queue.head ∧
        w2.log = w.log ++ (List.range k).map event.spawn ++ (List.range k).map event.join ++
          [event.threads_freed]) ∧
      thrdpool_create e (fuel + 1) h n =
        some (none, (List.range k).map event.spawn ++ (List.range k).map event.join ++
          [event.threads_freed, event.queue_freed, event.pool_freed])) ∧
    (k = n →
      ∃ pool, thrdpool_create e fuel h n = some (some pool, (List.range n).map event.spawn) ∧
        pool.thrd_count = n ∧ pool.quit = 0 ∧ pool.task_queue.block = 1 ∧
        pool.task_queue.head = 0) := by
  constructor
  · intro hlt hfail
    have hloop : spawn_loop e.spawn n n 0 = k :=
      spawn_loop_eq e.spawn n k hkn hfirst (fun _ => hfail) n 0 (by omega) (by omega)
    have hne : k ≠ n := by omega
    have htc : ∀ w : world, __threads_create e w n =
        (-1, { heap := w.heap,
               pool := { task_queue := __nonblock w.pool.task_queue, quit := 1,
                         thrd_count := (k : Int) },
               log := w.log ++ (List.range k).map event.spawn ++
                 (List.range k).map event.join ++ [event.threads_freed] }) := by
      intro w
      simp [__threads_create, hattr, hthreads, hloop, hne, __threads_terminate,
        thrdpool_terminate, joins_natCast]
    refine ⟨fun w => ⟨_, htc w, rfl, rfl, rfl, rfl, rfl⟩, ?_⟩
    simp [thrdpool_create, hpool, hqueue, hmutex, hcond, __taskqueue_create,
      size_t_of_int_natCast n hn, htc, __taskqueue_destroy, __pop_task, __nonblock]
  · intro hk
    subst hk
    have hloop : spawn_loop e.spawn k k 0 = k :=
      spawn_loop_eq e.spawn k k hkn hfirst (fun hlt => absurd hlt (lt_irrefl k)) k 0
        (by omega) (by omega)
    refine ⟨{ task_queue := { head := 0, tail := slot.null, block := 1 }, quit := 0,
              thrd_count := (k : Int) }, ?_, rfl, rfl, rfl, rfl⟩
    simp [thrdpool_create, hpool, hqueue, hmutex, hcond, __taskqueue_create,
      size_t_of_int_natCast k hn, __threads_create, hattr, hthreads, hloop, slot.ofPtr]

/-- C7 at concrete inputs: `thrdpool_create(2)` when the second spawn fails, and
when both succeed. -/
theorem create_failure_unwound_witness :
    thrdpool_create env_second_spawn_fails 1 heap_empty 2 =
      some (none, [event.spawn 0, event.join 0, event.threads_freed, event.queue_freed,
        event.pool_freed]) ∧
    ∃ pool, thrdpool_create env_ok 0 heap_empty 2 =
        some (some pool, [event.spawn 0, event.spawn 1]) ∧
      pool.thrd_count = 2 ∧ pool.quit = 0 ∧ pool.task_queue.block = 1 ∧
      pool.task_queue.head = 0 :=
  ⟨((create_failure_unwound env_second_spawn_fails heap_empty 2 1 0 (by decide) rfl rfl rfl rfl
      rfl rfl (by decide) (fun i hi => decide_eq_true hi)).1
      (by decide) rfl).2,
   (create_failure_unwound env_ok heap_empty 2 2 0 (by decide) rfl rfl rfl rfl rfl rfl
      (by decide) (fun _ _ => rfl)).2 rfl⟩

/-! ## Threads: steps -/

theorem wstep_wtrans (w w1 : world) (pc pc1 : wpc) (hs : wstep w pc = some (pc1, w1)) :
    wtrans w pc pc1 w1 := by
  cases pc with
  | top =>
    simp only [wstep] at hs
    split at hs
    · cases hs
      exact wtrans.top_go (by assumption)
    · cases hs
      exact wtrans.top_exit (by assumption)
  | pop =>
    simp only [wstep] at hs
    cases hp : __pop_task w.heap w.pool.task_queue with
    | none => simp [hp] at hs
    | some r =>
      obtain ⟨t, q1⟩ := r
      simp only [hp] at hs
      split at hs
      · cases hs
        rename_i ht
        subst ht
        exact wtrans.pop_empty q1 hp
      · cases hs
        exact wtrans.pop_task t q1 (by assumption) hp
  | chk =>
    simp only [wstep] at hs
    split at hs
    · cases hs
      exact wtrans.chk_exit (by assumption)
    · cases hs
      exact wtrans.chk_wait (by assumption)
  | wait =>
    simp only [wstep] at hs
    cases hs
    exact wtrans.woken
  | got t =>
    simp only [wstep] at hs
    cases hc : w.heap t with
    | none => simp [hc] at hs
    | some c =>
      simp only [hc] at hs
      cases hf : free w.heap t with
      | none => simp [hf] at hs
      | some h1 =>
        simp only [hf] at hs
        cases hs
        exact wtrans.run t c h1 hc hf
  | handler =>
    simp only [wstep] at hs
    cases hs
    exact wtrans.ret
  | done =>
    simp only [wstep] at hs
    cases hs
    exact wtrans.stay

/-- The thread at index `i` splits the list of threads. -/
theorem getElem?_split {α : Type} : ∀ (thr : List α) (i : Nat) (pc : α), thr[i]? = some pc →
    ∃ l1 l2, thr = l1 ++ pc :: l2 ∧ l1.length = i ∧ ∀ pc1, thr.set i pc1 = l1 ++ pc1 :: l2
  | [], i, pc, h => by simp at h
  | x :: thr, 0, pc, h => by
    simp only [List.getElem?_cons_zero, Option.some.injEq] at h
    subst h
    exact ⟨[], thr, rfl, rfl, fun _ => rfl⟩
  | x :: thr, i + 1, pc, h => by
    simp only [List.getElem?_cons_succ] at h
    obtain ⟨l1, l2, e, hlen, hset⟩ := getElem?_split thr i pc h
    refine ⟨x :: l1, l2, by rw [e]; rfl, by simp [hlen], ?_⟩
    intro pc1
    simp only [List.set_cons_succ, hset pc1, List.cons_append]

/-- A step of worker `i`, spelled out. -/
theorem step_worker (s s1 : sys) (i : Nat) (hs : s.step (action.worker i) = some s1) :
    ∃ l1 l2 pc pc1 w1, s.thr = l1 ++ pc :: l2 ∧ l1.length = i ∧ pc ≠ wpc.wait ∧
      pc ≠ wpc.done ∧ wtrans s.w pc pc1 w1 ∧ s1 = { w := w1, thr := l1 ++ pc1 :: l2 } := by
  simp only [sys.step] at hs
  cases hi : s.thr[i]? with
  | none => simp [hi] at hs
  | some pc =>
    simp only [hi] at hs
    obtain ⟨l1, l2, e, hlen, hset⟩ := getElem?_split s.thr i pc hi
    split at hs
    · cases hs
    · rename_i hne
      cases hw : wstep s.w pc with
      | none => simp [hw] at hs
      | some r =>
        obtain ⟨pc1, w1⟩ := r
        simp only [hw, Option.some.injEq] at hs
        refine ⟨l1, l2, pc, pc1, w1, e, hlen, fun h => hne (Or.inl h), fun h => hne (Or.inr h),
          wstep_wtrans _ _ _ _ hw, ?_⟩
        rw [← hs, hset pc1]

/-- A wake-up of worker `i`, spelled out. -/
theorem step_wake (s s1 : sys) (i : Nat) (hs : s.step (action.wake i) = some s1) :
    ∃ l1 l2, s.thr = l1 ++ wpc.wait :: l2 ∧ l1.length = i ∧
      s1 = { w := s.w, thr := l1 ++ wpc.pop :: l2 } := by
  simp only [sys.step] at hs
  split at hs
  · rename_i hi
    obtain ⟨l1, l2, e, hlen, hset⟩ := getElem?_split s.thr i _ hi
    cases hs
    exact ⟨l1, l2, e, hlen, by rw [hset wpc.pop]⟩
  · cases hs

theorem inflight_append (l1 l2 : List wpc) : inflight (l1 ++ l2) = inflight l1 ++ inflight l2 := by
  simp [inflight, List.filterMap_append]

theorem inflight_cons_none (pc : wpc) (l : List wpc) (h : pc.task = none) :
    inflight (pc :: l) = inflight l := by
  simp [inflight, List.filterMap_cons, h]

theorem inflight_cons_got (a : Nat) (l : List wpc) :
    inflight (wpc.got a :: l) = a :: inflight l := by
  simp [inflight, List.filterMap_cons, wpc.task]

theorem inflight_broadcast (thr : List wpc) : inflight (broadcast thr) = inflight thr := by
  induction thr with
  | nil => rfl
  | cons pc thr ih =>
    have e : broadcast (pc :: thr) = (if pc = wpc.wait then wpc.pop else pc) :: broadcast thr := rfl
    rw [e]
    by_cases hpc : pc = wpc.wait
    · subst hpc
      rw [if_pos rfl, inflight_cons_none wpc.pop _ rfl, inflight_cons_none wpc.wait _ rfl, ih]
    · rw [if_neg hpc]
      cases ht : pc.task with
      | none => rw [inflight_cons_none _ _ ht, inflight_cons_none _ _ ht, ih]
      | some a =>
        cases pc <;> simp [wpc.task] at ht
        subst ht
        rw [inflight_cons_got, inflight_cons_got, ih]

theorem inflight_replace (l1 l2 : List wpc) (pc pc1 : wpc) (h : pc.task = none)
    (h1 : pc1.task = none) : inflight (l1 ++ pc1 :: l2) = inflight (l1 ++ pc :: l2) := by
  rw [inflight_append, inflight_append, inflight_cons_none pc1 l2 h1, inflight_cons_none pc l2 h]

theorem inflight_got (l1 l2 : List wpc) (a : Nat) :
    inflight (l1 ++ wpc.got a :: l2) = inflight l1 ++ a :: inflight l2 := by
  rw [inflight_append, inflight_cons_got]

theorem inflight_drop (l1 l2 : List wpc) (pc : wpc) (h : pc.task = none) :
    inflight (l1 ++ pc :: l2) = inflight l1 ++ inflight l2 := by
  rw [inflight_append, inflight_cons_none pc l2 h]

/-- The invariant holds at the start. -/
theorem Inv_init (s : sys) (l : List Nat)
    (hl : linked s.w.heap s.w.pool.task_queue.head l = true) (hthr : inflight s.thr = []) :
    Inv s.w.heap l s.w.log s :=
  ⟨[], l, by simp [runs_nil], hl, by simp [hthr], fun _ _ => rfl⟩

/-- Every action keeps the invariant. -/
theorem Inv_step (h0 : heap_t) (l0 : List Nat) (log0 : List event) (p0 : Nat)
    (hl0 : linked h0 p0 l0 = true) (s s1 : sys) (a : action) (hinv : Inv h0 l0 log0 s)
    (hs : s.step a = some s1) : Inv h0 l0 log0 s1 := by
  obtain ⟨X, ql, hlog, hlk, hperm, hheap⟩ := hinv
  cases a with
  | worker i =>
    obtain ⟨l1, l2, pc, pc1, w1, ethr, _, hnw, hnd, htr, rfl⟩ := step_worker s s1 i hs
    rw [ethr] at hperm hheap
    cases htr with
    | top_go _ =>
      have e := inflight_replace l1 l2 wpc.top wpc.pop rfl rfl
      exact ⟨X, ql, hlog, hlk, by rw [e]; exact hperm, by rw [e]; exact hheap⟩
    | top_exit _ =>
      have e := inflight_replace l1 l2 wpc.top wpc.done rfl rfl
      exact ⟨X, ql, hlog, hlk, by rw [e]; exact hperm, by rw [e]; exact hheap⟩
    | chk_exit _ =>
      have e := inflight_replace l1 l2 wpc.chk wpc.done rfl rfl
      exact ⟨X, ql, hlog, hlk, by rw [e]; exact hperm, by rw [e]; exact hheap⟩
    | chk_wait _ =>
      have e := inflight_replace l1 l2 wpc.chk wpc.wait rfl rfl
      exact ⟨X, ql, hlog, hlk, by rw [e]; exact hperm, by rw [e]; exact hheap⟩
    | ret =>
      have e := inflight_replace l1 l2 wpc.handler wpc.top rfl rfl
      exact ⟨X, ql, hlog, hlk, by rw [e]; exact hperm, by rw [e]; exact hheap⟩
    | woken => exact absurd rfl hnw
    | stay => exact absurd rfl hnd
    | pop_empty q1 hpop =>
      have e := inflight_replace l1 l2 wpc.pop wpc.chk rfl rfl
      cases ql with
      | nil =>
        rw [pop_task_nil _ _ hlk] at hpop
        simp only [Option.some.injEq, Prod.mk.injEq, true_and] at hpop
        subst hpop
        exact ⟨X, [], hlog, hlk, by rw [e]; exact hperm, by rw [e]; exact hheap⟩
      | cons b l =>
        obtain ⟨q2, hp2, _⟩ := pop_task_cons _ _ b l hlk
        have hb0 : b ≠ 0 := linked_ne_zero _ _ _ hlk b (by simp)
        rw [hp2] at hpop
        simp only [Option.some.injEq, Prod.mk.injEq] at hpop
        exact absurd hpop.1 hb0
    | pop_task t q1 ht hpop =>
      cases ql with
      | nil =>
        rw [pop_task_nil _ _ hlk] at hpop
        simp only [Option.some.injEq, Prod.mk.injEq] at hpop
        exact absurd hpop.1.symm ht
      | cons b l =>
        obtain ⟨q2, hp2, hl2, _⟩ := pop_task_cons _ _ b l hlk
        rw [hp2] at hpop
        simp only [Option.some.injEq, Prod.mk.injEq] at hpop
        obtain ⟨rfl, rfl⟩ := hpop
        rw [inflight_drop l1 l2 wpc.pop rfl] at hperm hheap
        refine ⟨X, l, hlog, hl2, ?_, ?_⟩
        · show List.Perm (X ++ inflight (l1 ++ wpc.got b :: l2) ++ l) l0
          rw [inflight_got]
          refine List.Perm.trans ?_ hperm
          rw [List.perm_iff_count]
          intro x
          simp only [List.count_append, List.count_cons]
          omega
        · intro x hx
          show s.w.heap x = h0 x
          apply hheap
          rw [inflight_got] at hx
          simp only [List.mem_append, List.mem_cons] at hx ⊢
          tauto
    | run t c h1 hc hfree =>
      rw [inflight_got] at hperm hheap
      have hnd0 : l0.Nodup := linked_nodup _ _ _ hl0
      have hnd1 : (X ++ (inflight l1 ++ t :: inflight l2) ++ ql).Nodup :=
        (List.Perm.nodup_iff hperm).mpr hnd0
      have hcnt := List.nodup_iff_count_le_one.mp hnd1 t
      simp only [List.count_append, List.count_cons, beq_self_eq_true, if_true] at hcnt
      have htl0 : t ∈ l0 := by
        apply (List.Perm.mem_iff hperm).mp
        simp
      have ht0 : t ≠ 0 := linked_ne_zero _ _ _ hl0 t htl0
      have hth0 : h0 t = some c := by
        rw [← hheap t (by simp)]
        exact hc
      have hX : t ∉ X := fun hm => by
        have := List.count_pos_iff.mpr hm
        omega
      have hI1 : t ∉ inflight l1 := fun hm => by
        have := List.count_pos_iff.mpr hm
        omega
      have hI2 : t ∉ inflight l2 := fun hm => by
        have := List.count_pos_iff.mpr hm
        omega
      have hql : t ∉ ql := fun hm => by
        have := List.count_pos_iff.mpr hm
        omega
      rw [free_live _ t c ht0 hc] at hfree
      simp only [Option.some.injEq] at hfree
      subst hfree
      refine ⟨X ++ [t], ql, ?_, linked_free _ ql _ t hql hlk, ?_, ?_⟩
      · show s.w.log ++ [event.free t, event.call c.func c.arg] = log0 ++ runs h0 (X ++ [t])
        rw [hlog, runs_append, runs_cons h0 t [] c hth0, runs_nil]
        simp
      · show List.Perm (X ++ [t] ++ inflight (l1 ++ wpc.handler :: l2) ++ ql) l0
        rw [inflight_drop l1 l2 wpc.handler rfl]
        refine List.Perm.trans ?_ hperm
        rw [List.perm_iff_count]
        intro x
        simp only [List.count_append, List.count_cons, List.count_nil]
        omega
      · intro x hx
        show Function.update s.w.heap t none x = h0 x
        rw [inflight_drop l1 l2 wpc.handler rfl] at hx
        have hxt : x ≠ t := by
          intro e
          subst e
          simp only [List.mem_append] at hx
          tauto
        rw [Function.update_noteq hxt]
        apply hheap
        simp only [List.mem_append, List.mem_cons] at hx ⊢
        tauto
  | wake i =>
    obtain ⟨l1, l2, ethr, _, rfl⟩ := step_wake s s1 i hs
    rw [ethr] at hperm hheap
    have e := inflight_replace l1 l2 wpc.wait wpc.pop rfl rfl
    exact ⟨X, ql, hlog, hlk, by rw [e]; exact hperm, by rw [e]; exact hheap⟩
  | terminate =>
    simp only [sys.step, Option.some.injEq] at hs
    subst hs
    refine ⟨X, ql, hlog, hlk, ?_, ?_⟩
    · show List.Perm (X ++ inflight (broadcast s.thr) ++ ql) l0
      rw [inflight_broadcast]
      exact hperm
    · show ∀ a ∈ inflight (broadcast s.thr) ++ ql, s.w.heap a = h0 a
      rw [inflight_broadcast]
      exact hheap

/-- Every sequence of actions keeps the invariant. -/
theorem Inv_run (h0 : heap_t) (l0 : List Nat) (log0 : List event) (p0 : Nat)
    (hl0 : linked h0 p0 l0 = true) : ∀ (as : List action) (s s1 : sys), Inv h0 l0 log0 s →
    s.run as = some s1 → Inv h0 l0 log0 s1
  | [], s, s1, hinv, hr => by
    simp only [sys.run, Option.some.injEq] at hr
    subst hr
    exact hinv
  | a :: as, s, s1, hinv, hr => by
    simp only [sys.run] at hr
    cases hs : s.step a with
    | none => simp [hs] at hr
    | some s2 =>
      simp only [hs] at hr
      exact Inv_run h0 l0 log0 p0 hl0 as s2 s1 (Inv_step h0 l0 log0 p0 hl0 s s2 a hinv hs) hr

/-! ## Shutdown with tasks queued -/

theorem calls_runs (h : heap_t) (l : List Nat) : calls (runs h l) = l.filterMap (payload h) := by
  induction l with
  | nil => rfl
  | cons a l ih =>
    have e : runs h (a :: l) = runs h [a] ++ runs h l := runs_append h [a] l
    rw [e, calls_append, ih]
    cases hp : payload h a with
    | none => simp [runs, hp, calls]
    | some fx =>
      obtain ⟨f, x⟩ := fx
      simp [runs, hp, calls]

theorem frees_runs (h : heap_t) (l : List Nat) (hlive : ∀ a ∈ l, h a ≠ none) :
    frees (runs h l) = l := by
  induction l with
  | nil => rfl
  | cons a l ih =>
    have e : runs h (a :: l) = runs h [a] ++ runs h l := runs_append h [a] l
    rw [e, frees_append, ih (fun b hb => hlive b (List.mem_cons_of_mem a hb))]
    cases hc : h a with
    | none => exact absurd hc (hlive a (List.mem_cons_self a l))
    | some c => simp [runs, payload, hc, frees]

theorem inflight_all_done (thr : List wpc) (hd : ∀ pc ∈ thr, pc = wpc.done) :
    inflight thr = [] := by
  induction thr with
  | nil => rfl
  | cons pc thr ih =>
    have : pc = wpc.done := hd pc (List.mem_cons_self pc thr)
    subst this
    rw [inflight_cons_none wpc.done thr rfl]
    exact ih (fun pc hpc => hd pc (List.mem_cons_of_mem _ hpc))

theorem getElem?_append_length {α : Type} (l1 l2 : List α) (x : α) :
    (l1 ++ x :: l2)[l1.length]? = some x := by
  induction l1 with
  | nil => simp
  | cons a l1 ih => simpa using ih

theorem set_append_length {α : Type} (l1 l2 : List α) (x y : α) :
    (l1 ++ x :: l2).set l1.length y = l1 ++ y :: l2 := by
  induction l1 with
  | nil => rfl
  | cons a l1 ih => simp

theorem step_at (s : sys) (l1 l2 : List wpc) (pc pc1 : wpc) (w1 : world)
    (hthr : s.thr = l1 ++ pc :: l2) (hw : pc ≠ wpc.wait) (hd : pc ≠ wpc.done)
    (hs : wstep s.w pc = some (pc1, w1)) :
    s.step (action.worker l1.length) = some { w := w1, thr := l1 ++ pc1 :: l2 } := by
  have hi : s.thr[l1.length]? = some pc := by
    rw [hthr]
    exact getElem?_append_length l1 l2 pc
  have hne : ¬ (pc = wpc.wait ∨ pc = wpc.done) := fun h => h.elim hw hd
  have hset : s.thr.set l1.length pc1 = l1 ++ pc1 :: l2 := by
    rw [hthr]
    exact set_append_length l1 l2 pc pc1
  simp only [sys.step, hi, hs, if_neg hne, hset]

/-- A worker inside a handler when `thrdpool_terminate` is called returns without
popping: its next two steps leave the state as the call left it. -/
theorem handler_then_exit (s : sys) (l1 l2 : List wpc) (hthr : s.thr = l1 ++ wpc.handler :: l2) :
    s.terminate.run [action.worker l1.length, action.worker l1.length] =
      some { w := thrdpool_terminate s.w, thr := broadcast l1 ++ wpc.done :: broadcast l2 } := by
  have hb : s.terminate.thr = broadcast l1 ++ wpc.handler :: broadcast l2 := by
    show broadcast s.thr = _
    rw [hthr]
    simp [broadcast]
  have hlen : (broadcast l1).length = l1.length := by simp [broadcast]
  have h1 := step_at s.terminate (broadcast l1) (broadcast l2) wpc.handler wpc.top
    (thrdpool_terminate s.w) hb (by decide) (by decide) rfl
  have h2 := step_at { w := thrdpool_terminate s.w, thr := broadcast l1 ++ wpc.top :: broadcast l2 }
    (broadcast l1) (broadcast l2) wpc.top wpc.done (thrdpool_terminate s.w) rfl (by decide)
    (by decide) rfl
  rw [hlen] at h1 h2
  simp only [sys.run, h1, h2]

/-- Conservation of the queued tasks: from a state with the tasks `l0` linked
and no task in flight, after any interleaving of worker steps, wake-ups and
`thrdpool_terminate` calls, the log has grown by the runs (free, then handler
call) of a list `X` of tasks without repetition, and `X`, the tasks in flight
and the tasks still linked are together exactly `l0`: a task is run at most
once, and the handler calls made are at most `l0.length`.  Once every worker
has returned, each task of `l0` has been run once or is still linked, and
`thrdpool_waitdone` returns, freeing the linked ones without a handler call.  A
worker that tests `quit` after `thrdpool_terminate` exits without popping; so a
worker that is inside a handler when `thrdpool_terminate` is called returns in
two steps and leaves heap, queue and log as the call left them. -/
theorem queued_tasks_run_at_most_once (s0 s : sys) (l0 : List Nat) (as : List action)
    (hl : linked s0.w.heap s0.w.pool.task_queue.head l0 = true)
    (hthr : inflight s0.thr = []) (hrun : s0.run as = some s) :
    (∃ X ql, s.w.log = s0.w.log ++ runs s0.w.heap X ∧
      linked s.w.heap s.w.pool.task_queue.head ql = true ∧
      List.Perm (X ++ inflight s.thr ++ ql) l0 ∧ X.Nodup ∧
      calls s.w.log = calls s0.w.log ++ X.filterMap (payload s0.w.heap) ∧
      (calls s.w.log).length ≤ (calls s0.w.log).length + l0.length ∧
      ((∀ pc ∈ s.thr, pc = wpc.done) →
        List.Perm (X ++ ql) l0 ∧
        ∃ w2, s.waitdone (ql.length + 1) = some w2 ∧ calls w2.log = calls s.w.log ∧
          frees w2.log = frees s0.w.log ++ X ++ ql)) ∧
    (∀ w : world, w.pool.quit ≠ 0 → wstep w wpc.top = some (wpc.done, w)) ∧
    (∀ (s3 : sys) (l1 l2 : List wpc), s3.thr = l1 ++ wpc.handler :: l2 →
      s3.terminate.run [action.worker l1.length, action.worker l1.length] =
        some { w := thrdpool_terminate s3.w,
               thr := broadcast l1 ++ wpc.done :: broadcast l2 }) := by
  refine ⟨?_, fun w hq => by simp [wstep, hq], handler_then_exit⟩
  have hinv := Inv_run s0.w.heap l0 s0.w.log _ hl as s0 s (Inv_init s0 l0 hl hthr) hrun
  obtain ⟨X, ql, hlog, hlk, hperm, hheap⟩ := hinv
  have hnd0 : l0.Nodup := linked_nodup _ _ _ hl
  have hnd1 : (X ++ inflight s.thr ++ ql).Nodup := (List.Perm.nodup_iff hperm).mpr hnd0
  have hXnd : X.Nodup := by
    rw [List.append_assoc] at hnd1
    exact (List.nodup_append.mp hnd1).1
  have hXl0 : ∀ a ∈ X, a ∈ l0 := fun a ha =>
    (List.Perm.mem_iff hperm).mp (by simp [ha])
  have hXlen : X.length ≤ l0.length := by
    rw [← List.Perm.length_eq hperm]
    simp only [List.length_append]
    omega
  have hcalls : calls s.w.log = calls s0.w.log ++ X.filterMap (payload s0.w.heap) := by
    rw [hlog, calls_append, calls_runs]
  refine ⟨X, ql, hlog, hlk, hperm, hXnd, hcalls, ?_, ?_⟩
  · rw [hcalls, List.length_append]
    have := List.length_filterMap_le (payload s0.w.heap) X
    omega
  · intro hdone
    have hin := inflight_all_done s.thr hdone
    rw [hin, List.append_nil] at hperm
    refine ⟨hperm, ?_⟩
    obtain ⟨w2, hwd, _, hc2, hf2, _⟩ :=
      waitdone_linked s.w ql (ql.length + 1) hlk (Nat.lt_succ_self _)
    refine ⟨w2, ?_, hc2, ?_⟩
    · have hall : s.thr.all (fun pc => decide (pc = wpc.done)) = true := by
        rw [List.all_eq_true]
        intro pc hpc
        simp [hdone pc hpc]
      simp only [sys.waitdone, hall, if_true]
      exact hwd
    · rw [hf2, hlog, frees_append, frees_runs]
      intro a ha
      obtain ⟨c, hc⟩ := linked_live _ _ _ hl a (hXl0 a ha)
      rw [hc]
      simp

/-- The test of `quit` at work: one worker, `A` then `B` linked, and
`thrdpool_terminate` called while the handler of `A` runs.  The worker returns
after `A`; `B` is still linked, `thrdpool_waitdone` frees it, and the handler of
`B` (handler 20 on context 21) is called zero times. -/
theorem terminate_during_handler_skips_B :
    (sys_AB.run terminate_during_A).map
        (fun s => (s.thr, s.w.log, s.w.pool.task_queue.head, s.w.pool.quit)) =
      some ([wpc.done], [event.free 1, event.call 10 11], 2, 1) ∧
    ((sys_AB.run terminate_during_A).bind (sys.waitdone 2)).map (fun w => w.log) =
      some [event.free 1, event.call 10 11, event.join 0, event.free 2, event.queue_freed,
        event.threads_freed, event.pool_freed] ∧
    ((sys_AB.run terminate_during_A).bind (sys.waitdone 2)).map
        (fun w => (calls w.log).count (20, 21)) = some 0 := by
  refine ⟨by decide, by decide, by decide⟩

/-- Conservation of the queued tasks at the run `terminate_during_A`. -/
theorem queued_tasks_run_at_most_once_witness :
    linked sys_AB.w.heap sys_AB.w.pool.task_queue.head [1, 2] = true ∧
    inflight sys_AB.thr = [] ∧ sys_AB.run terminate_during_A = some sys_AB_end ∧
    ∃ X ql, sys_AB_end.w.log = sys_AB.w.log ++ runs sys_AB.w.heap X ∧
      linked sys_AB_end.w.heap sys_AB_end.w.pool.task_queue.head ql = true ∧
      List.Perm (X ++ inflight sys_AB_end.thr ++ ql) [1, 2] ∧ X.Nodup ∧
      calls sys_AB_end.w.log = calls sys_AB.w.log ++ X.filterMap (payload sys_AB.w.heap) ∧
      (calls sys_AB_end.w.log).length ≤ (calls sys_AB.w.log).length + [1, 2].length ∧
      ((∀ pc ∈ sys_AB_end.thr, pc = wpc.done) →
        List.Perm (X ++ ql) [1, 2] ∧
        ∃ w2, sys_AB_end.waitdone (ql.length + 1) = some w2 ∧
          calls w2.log = calls sys_AB_end.w.log ∧
          frees w2.log = frees sys_AB.w.log ++ X ++ ql) :=
  ⟨by decide, rfl, rfl,
   (queued_tasks_run_at_most_once sys_AB sys_AB_end [1, 2] terminate_during_A (by decide) rfl
     rfl).1⟩

/-! ## Shutdown terminates -/

theorem pop_task_block (h : heap_t) (q q1 : task_queue_t) (t : Nat)
    (hp : __pop_task h q = some (t, q1)) : q1.block = q.block := by
  unfold __pop_task at hp
  split at hp
  · cases hp
    rfl
  · cases hc : h q.head with
    | none => simp [hc] at hp
    | some c =>
      simp only [hc] at hp
      split at hp <;> (cases hp; rfl)

theorem total_rank_split (l1 l2 : List wpc) (pc : wpc) :
    total_rank (l1 ++ pc :: l2) = total_rank l1 + rank pc + total_rank l2 := by
  simp [total_rank, List.map_append, List.sum_append, List.sum_cons, Nat.add_assoc]

theorem total_calls_left_split (l1 l2 : List wpc) (pc : wpc) :
    total_calls_left (l1 ++ pc :: l2) =
      total_calls_left l1 + calls_left pc + total_calls_left l2 := by
  simp [total_calls_left, List.map_append, List.sum_append, List.sum_cons, Nat.add_assoc]

theorem broadcast_no_wait (thr : List wpc) (h : wpc.wait ∉ thr) : broadcast thr = thr := by
  induction thr with
  | nil => rfl
  | cons pc thr ih =>
    have hpc : pc ≠ wpc.wait := fun e => h (by simp [e])
    have hrest : wpc.wait ∉ thr := fun hm => h (List.mem_cons_of_mem pc hm)
    show (if pc = wpc.wait then wpc.pop else pc) :: broadcast thr = pc :: thr
    rw [if_neg hpc, ih hrest]

theorem wait_not_mem_broadcast (thr : List wpc) : wpc.wait ∉ broadcast thr := by
  induction thr with
  | nil => simp [broadcast]
  | cons pc thr ih =>
    show wpc.wait ∉ (if pc = wpc.wait then wpc.pop else pc) :: broadcast thr
    by_cases hpc : pc = wpc.wait
    · rw [if_pos hpc]
      simp only [List.mem_cons, not_or]
      exact ⟨by decide, ih⟩
    · rw [if_neg hpc]
      simp only [List.mem_cons, not_or]
      exact ⟨fun e => hpc e.symm, ih⟩

theorem total_rank_no_wait (thr : List wpc) (h : wpc.wait ∉ thr) :
    total_rank thr ≤ 4 * thr.length := by
  induction thr with
  | nil => simp [total_rank]
  | cons pc thr ih =>
    have hpc : pc ≠ wpc.wait := fun e => h (by simp [e])
    have hrest : wpc.wait ∉ thr := fun hm => h (List.mem_cons_of_mem pc hm)
    have e : total_rank (pc :: thr) = rank pc + total_rank thr := by
      simp [total_rank]
    have hr : rank pc ≤ 4 := by
      cases pc <;> simp [rank] at hpc ⊢
    rw [e, List.length_cons]
    have := ih hrest
    omega

theorem total_calls_left_le (thr : List wpc) : total_calls_left thr ≤ thr.length := by
  induction thr with
  | nil => simp [total_calls_left]
  | cons pc thr ih =>
    have e : total_calls_left (pc :: thr) = calls_left pc + total_calls_left thr := by
      simp [total_calls_left]
    have hr : calls_left pc ≤ 1 := by
      cases pc <;> simp [calls_left]
    rw [e, List.length_cons]
    omega

/-- While draining, every action keeps the pool draining; a worker step lowers
the total rank, and the handler calls made plus those still possible do not
grow. -/
theorem Draining_step (h0 : heap_t) (l0 : List Nat) (log0 : List event) (p0 : Nat)
    (hl0 : linked h0 p0 l0 = true) (s s1 : sys) (a : action) (hd : Draining h0 l0 log0 s)
    (hs : s.step a = some s1) :
    Draining h0 l0 log0 s1 ∧
    worker_actions [a] + total_rank s1.thr ≤ total_rank s.thr ∧
    (calls s1.w.log).length + total_calls_left s1.thr ≤
      (calls s.w.log).length + total_calls_left s.thr ∧
    s1.thr.length = s.thr.length := by
  obtain ⟨hinv, hq, hb, hnw⟩ := hd
  have hinv1 := Inv_step h0 l0 log0 p0 hl0 s s1 a hinv hs
  cases a with
  | worker i =>
    obtain ⟨l1, l2, pc, pc1, w1, ethr, _, hpcw, hpcd, htr, rfl⟩ := step_worker s s1 i hs
    have hwa : worker_actions [action.worker i] = 1 := rfl
    rw [ethr] at hnw
    have hn1 : wpc.wait ∉ l1 := fun hm => hnw (by simp [hm])
    have hn2 : wpc.wait ∉ l2 := fun hm => hnw (by simp [hm])
    have hmem : ∀ pc2, pc2 ≠ wpc.wait → wpc.wait ∉ l1 ++ pc2 :: l2 := by
      intro pc2 hpc2 hm
      simp only [List.mem_append, List.mem_cons] at hm
      rcases hm with hm | hm | hm
      · exact hn1 hm
      · exact hpc2 hm.symm
      · exact hn2 hm
    have hlen : (l1 ++ pc1 :: l2).length = s.thr.length := by
      rw [ethr]
      simp
    suffices hgoal : Draining h0 l0 log0 { w := w1, thr := l1 ++ pc1 :: l2 } ∧
        1 + total_rank (l1 ++ pc1 :: l2) ≤ total_rank (l1 ++ pc :: l2) ∧
        (calls w1.log).length + total_calls_left (l1 ++ pc1 :: l2) ≤
          (calls s.w.log).length + total_calls_left (l1 ++ pc :: l2) by
      rw [hwa, ethr]
      exact ⟨hgoal.1, hgoal.2.1, hgoal.2.2, by rw [← ethr]; exact hlen⟩
    simp only [total_rank_split, total_calls_left_split]
    cases htr with
    | top_go hq0 =>
      rw [hq] at hq0
      exact absurd hq0 (by decide)
    | top_exit _ =>
      exact ⟨⟨hinv1, hq, hb, hmem _ (by decide)⟩, by simp only [rank]; omega,
        by simp only [calls_left]; omega⟩
    | chk_exit _ =>
      exact ⟨⟨hinv1, hq, hb, hmem _ (by decide)⟩, by simp only [rank]; omega,
        by simp only [calls_left]; omega⟩
    | chk_wait hb0 => exact absurd hb hb0
    | ret =>
      exact ⟨⟨hinv1, hq, hb, hmem _ (by decide)⟩, by simp only [rank]; omega,
        by simp only [calls_left]; omega⟩
    | woken => exact absurd rfl hpcw
    | stay => exact absurd rfl hpcd
    | pop_empty q1 hpop =>
      have hb1 := pop_task_block _ _ _ _ hpop
      refine ⟨⟨hinv1, hq, by show q1.block = 0; rw [hb1, hb], hmem _ (by decide)⟩,
        by simp only [rank]; omega, ?_⟩
      show (calls s.w.log).length + _ ≤ _
      simp only [calls_left]
      omega
    | pop_task t q1 ht hpop =>
      have hb1 := pop_task_block _ _ _ _ hpop
      refine ⟨⟨hinv1, hq, by show q1.block = 0; rw [hb1, hb], hmem _ (by simp)⟩,
        by simp only [rank]; omega, ?_⟩
      show (calls s.w.log).length + _ ≤ _
      simp only [calls_left]
      omega
    | run t c h1 hc hfree =>
      refine ⟨⟨hinv1, hq, hb, hmem _ (by decide)⟩, by simp only [rank]; omega, ?_⟩
      show (calls (s.w.log ++ [event.free t, event.call c.func c.arg])).length + _ ≤ _
      have e : calls [event.free t, event.call c.func c.arg] = [(c.func, c.arg)] := rfl
      rw [calls_append, e]
      simp only [List.length_append, List.length_singleton, calls_left]
      omega
  | wake i =>
    obtain ⟨l1, l2, ethr, _, rfl⟩ := step_wake s s1 i hs
    exact absurd (by rw [ethr]; simp) hnw
  | terminate =>
    simp only [sys.step, Option.some.injEq] at hs
    subst hs
    have e : s.terminate.thr = s.thr := broadcast_no_wait s.thr hnw
    have hwa : worker_actions [action.terminate] = 0 := rfl
    refine ⟨⟨hinv1, rfl, rfl, by rw [e]; exact hnw⟩, by rw [hwa, e]; omega, ?_, by rw [e]⟩
    rw [e]
    exact le_refl _

theorem worker_actions_cons (a : action) (as : List action) :
    worker_actions (a :: as) = worker_actions [a] + worker_actions as := by
  cases a <;> simp [worker_actions, List.filter_cons] <;> omega

/-- While draining, a sequence of actions keeps the pool draining, with the
bounds of `Draining_step` added up. -/
theorem Draining_run (h0 : heap_t) (l0 : List Nat) (log0 : List event) (p0 : Nat)
    (hl0 : linked h0 p0 l0 = true) : ∀ (as : List action) (s s1 : sys),
    Draining h0 l0 log0 s → s.run as = some s1 →
    Draining h0 l0 log0 s1 ∧
    worker_actions as + total_rank s1.thr ≤ total_rank s.thr ∧
    (calls s1.w.log).length + total_calls_left s1.thr ≤
      (calls s.w.log).length + total_calls_left s.thr ∧
    s1.thr.length = s.thr.length
  | [], s, s1, hd, hr => by
    simp only [sys.run, Option.some.injEq] at hr
    subst hr
    exact ⟨hd, by simp [worker_actions], le_refl _, rfl⟩
  | a :: as, s, s1, hd, hr => by
    simp only [sys.run] at hr
    cases hs : s.step a with
    | none => simp [hs] at hr
    | some s2 =>
      simp only [hs] at hr
      obtain ⟨hd2, hr2, hc2, hlen2⟩ := Draining_step h0 l0 log0 p0 hl0 s s2 a hd hs
      obtain ⟨hd3, hr3, hc3, hlen3⟩ := Draining_run h0 l0 log0 p0 hl0 as s2 s1 hd2 hr
      refine ⟨hd3, ?_, by omega, by omega⟩
      rw [worker_actions_cons]
      omega

/-- A worker that is neither blocked nor done can take its step: the queue is a
list in the heap and the task it may hold is live. -/
theorem Draining_progress (h0 : heap_t) (l0 : List Nat) (log0 : List event) (p0 : Nat)
    (hl0 : linked h0 p0 l0 = true) (s : sys) (hd : Draining h0 l0 log0 s) (i : Nat) (pc : wpc)
    (hi : s.thr[i]? = some pc) (hpc : pc ≠ wpc.done) :
    ∃ s1, s.step (action.worker i) = some s1 := by
  obtain ⟨⟨X, ql, hlog, hlk, hperm, hheap⟩, hq, hb, hnw⟩ := hd
  have hmem : pc ∈ s.thr := List.mem_iff_getElem?.mpr ⟨i, hi⟩
  have hpw : pc ≠ wpc.wait := fun e => hnw (e ▸ hmem)
  have hstep : ∃ r, wstep s.w pc = some r := by
    cases pc with
    | top => simp [wstep, hq]
    | pop =>
      cases ql with
      | nil => simp [wstep, pop_task_nil _ _ hlk]
      | cons b l =>
        obtain ⟨q2, hp2, _⟩ := pop_task_cons _ _ b l hlk
        have hb0 : b ≠ 0 := linked_ne_zero _ _ _ hlk b (by simp)
        simp [wstep, hp2, hb0]
    | chk => simp [wstep, hb]
    | wait => exact absurd rfl hpw
    | got t =>
      have htin : t ∈ inflight s.thr := by
        simp only [inflight, List.mem_filterMap]
        exact ⟨wpc.got t, hmem, rfl⟩
      have htl0 : t ∈ l0 := (List.Perm.mem_iff hperm).mp (by simp [htin])
      obtain ⟨c, hc⟩ := linked_live _ _ _ hl0 t htl0
      have ht0 : t ≠ 0 := linked_ne_zero _ _ _ hl0 t htl0
      have hc2 : s.w.heap t = some c := by
        rw [hheap t (by simp [htin])]
        exact hc
      simp [wstep, hc2, free_live _ t c ht0 hc2]
    | handler => simp [wstep]
    | done => exact absurd rfl hpc
  obtain ⟨⟨pc1, w1⟩, hw⟩ := hstep
  refine ⟨{ w := w1, thr := s.thr.set i pc1 }, ?_⟩
  have hne : ¬ (pc = wpc.wait ∨ pc = wpc.done) := fun h => h.elim hpw hpc
  simp only [sys.step, hi, hw, if_neg hne]

theorem total_rank_zero (thr : List wpc) (h : total_rank thr = 0) : ∀ pc ∈ thr, pc = wpc.done := by
  induction thr with
  | nil => simp
  | cons pc thr ih =>
    have e : total_rank (pc :: thr) = rank pc + total_rank thr := by
      simp [total_rank]
    rw [e] at h
    intro pc2 hpc2
    rcases List.mem_cons.mp hpc2 with rfl | hm
    · cases pc2 <;> simp [rank] at h ⊢
    · exact ih (by omega) pc2 hm

/-- While draining, some schedule lets every worker return. -/
theorem Draining_finish (h0 : heap_t) (l0 : List Nat) (log0 : List event) (p0 : Nat)
    (hl0 : linked h0 p0 l0 = true) : ∀ (n : Nat) (s : sys), total_rank s.thr ≤ n →
    Draining h0 l0 log0 s →
    ∃ as s1, s.run as = some s1 ∧ (∀ pc ∈ s1.thr, pc = wpc.done) ∧ Draining h0 l0 log0 s1
  | 0, s, hn, hd => ⟨[], s, rfl, total_rank_zero s.thr (by omega), hd⟩
  | n + 1, s, hn, hd => by
    by_cases hall : ∀ pc ∈ s.thr, pc = wpc.done
    · exact ⟨[], s, rfl, hall, hd⟩
    · push_neg at hall
      obtain ⟨pc, hmem, hpc⟩ := hall
      obtain ⟨i, hi⟩ := List.mem_iff_getElem?.mp hmem
      obtain ⟨s1, hs⟩ := Draining_progress h0 l0 log0 p0 hl0 s hd i pc hi hpc
      obtain ⟨hd1, hr1, _⟩ := Draining_step h0 l0 log0 p0 hl0 s s1 _ hd hs
      have hwa : worker_actions [action.worker i] = 1 := rfl
      rw [hwa] at hr1
      obtain ⟨as, s2, hrun, hdone, hd2⟩ :=
        Draining_finish h0 l0 log0 p0 hl0 n s1 (by omega) hd1
      refine ⟨action.worker i :: as, s2, ?_, hdone, hd2⟩
      simp only [sys.run, hs]
      exact hrun

/-- C5: take a pool with any tasks `l` linked and no task in flight, let it run
in any way, then call `thrdpool_terminate`, and let it run on in any way.  Then
`quit = 1` and `block = 0` stay; `__get_task` returns a task or "no more work"
and never waits, and no thread is inside `pthread_cond_wait`; the worker steps
taken since the call are at most four per thread; the handler calls made since
the call are at most one per thread; every worker that has not returned can take
its next step; and some continuation lets every worker return, after which
`thrdpool_waitdone` returns. -/
theorem workers_exit_after_terminate (s0 s1 s2 : sys) (l : List Nat) (as0 as : List action)
    (hl : linked s0.w.heap s0.w.pool.task_queue.head l = true)
    (hthr : inflight s0.thr = []) (h1 : s0.run as0 = some s1)
    (h2 : s1.terminate.run as = some s2) :
    s2.w.pool.quit = 1 ∧ s2.w.pool.task_queue.block = 0 ∧
    (∃ r q, __get_task s2.w.heap s2.w.pool.task_queue = some (r, q) ∧ r ≠ get_result.wait) ∧
    wpc.wait ∉ s2.thr ∧
    worker_actions as + total_rank s2.thr ≤ 4 * s1.thr.length ∧
    (calls s2.w.log).length + total_calls_left s2.thr ≤ (calls s1.w.log).length + s1.thr.length ∧
    (∀ i pc, s2.thr[i]? = some pc → pc ≠ wpc.done →
      ∃ s3, s2.step (action.worker i) = some s3) ∧
    (∃ as2 s3 fuel w, s2.run as2 = some s3 ∧ (∀ pc ∈ s3.thr, pc = wpc.done) ∧
      s3.thr.length = s1.thr.length ∧ worker_actions as + worker_actions as2 ≤ 4 * s1.thr.length ∧
      s3.waitdone fuel = some w) := by
  have hinv1 := Inv_run s0.w.heap l s0.w.log _ hl as0 s0 s1 (Inv_init s0 l hl hthr) h1
  have hinvT : Inv s0.w.heap l s0.w.log s1.terminate :=
    Inv_step s0.w.heap l s0.w.log _ hl s1 s1.terminate action.terminate hinv1 rfl
  have hdT : Draining s0.w.heap l s0.w.log s1.terminate :=
    ⟨hinvT, rfl, rfl, wait_not_mem_broadcast s1.thr⟩
  obtain ⟨hd2, hr2, hc2, hlen2⟩ := Draining_run s0.w.heap l s0.w.log _ hl as _ s2 hdT h2
  have hlenT : s1.terminate.thr.length = s1.thr.length := by
    show (broadcast s1.thr).length = s1.thr.length
    simp [broadcast]
  have hrT : total_rank s1.terminate.thr ≤ 4 * s1.thr.length := by
    rw [← hlenT]
    exact total_rank_no_wait _ (wait_not_mem_broadcast s1.thr)
  have hcT : total_calls_left s1.terminate.thr ≤ s1.thr.length := by
    rw [← hlenT]
    exact total_calls_left_le _
  have hlogT : s1.terminate.w.log = s1.w.log := rfl
  obtain ⟨⟨X, ql, _, hlk, _, _⟩, hq, hb, hnw⟩ := id hd2
  refine ⟨hq, hb, ?_, hnw, by omega, by rw [hlogT] at hc2; omega, ?_, ?_⟩
  · cases ql with
    | nil =>
      refine ⟨get_result.no_more_work, s2.w.pool.task_queue, ?_, by decide⟩
      rw [get_task_nil _ _ ((linked_nil _ _).mp hlk), if_pos hb]
    | cons a l2 =>
      obtain ⟨q2, hg, _⟩ := get_task_cons _ _ a l2 hlk
      exact ⟨get_result.task a, q2, hg, by simp⟩
  · intro i pc hi hpc
    exact Draining_progress s0.w.heap l s0.w.log _ hl s2 hd2 i pc hi hpc
  · obtain ⟨as2, s3, hrun, hdone, hd3⟩ :=
      Draining_finish s0.w.heap l s0.w.log _ hl (total_rank s2.thr) s2 (le_refl _) hd2
    obtain ⟨_, hr3, _, hlen3⟩ := Draining_run s0.w.heap l s0.w.log _ hl as2 s2 s3 hd2 hrun
    obtain ⟨⟨X3, ql3, _, hlk3, _, _⟩, _, _, _⟩ := hd3
    obtain ⟨w, hwd, _⟩ := waitdone_linked s3.w ql3 (ql3.length + 1) hlk3 (Nat.lt_succ_self _)
    refine ⟨as2, s3, ql3.length + 1, w, hrun, hdone, by omega, by omega, ?_⟩
    have hall : s3.thr.all (fun pc => decide (pc = wpc.done)) = true := by
      rw [List.all_eq_true]
      intro pc hpc
      simp [hdone pc hpc]
    simp only [sys.waitdone, hall, if_true]
    exact hwd

/-- C5 at the run `terminate_during_A`: the worker is inside the handler of `A`
when `thrdpool_terminate` is called, `B` is still linked. -/
theorem workers_exit_after_terminate_witness :
    linked sys_AB.w.heap sys_AB.w.pool.task_queue.head [1, 2] = true ∧
    inflight sys_AB.thr = [] ∧
    sys_AB.run [action.worker 0, action.worker 0, action.worker 0] = some sys_AB_mid ∧
    sys_AB_mid.terminate.run [action.worker 0, action.worker 0] = some sys_AB_end ∧
    sys_AB_end.w.pool.quit = 1 ∧ sys_AB_end.w.pool.task_queue.block = 0 ∧
    (∃ r q, __get_task sys_AB_end.w.heap sys_AB_end.w.pool.task_queue = some (r, q) ∧
      r ≠ get_result.wait) ∧
    wpc.wait ∉ sys_AB_end.thr ∧
    worker_actions [action.worker 0, action.worker 0] + total_rank sys_AB_end.thr ≤
      4 * sys_AB_mid.thr.length ∧
    (calls sys_AB_end.w.log).length + total_calls_left sys_AB_end.thr ≤
      (calls sys_AB_mid.w.log).length + sys_AB_mid.thr.length ∧
    (∀ i pc, sys_AB_end.thr[i]? = some pc → pc ≠ wpc.done →
      ∃ s3, sys_AB_end.step (action.worker i) = some s3) ∧
    (∃ as2 s3 fuel w, sys_AB_end.run as2 = some s3 ∧ (∀ pc ∈ s3.thr, pc = wpc.done) ∧
      s3.thr.length = sys_AB_mid.thr.length ∧
      worker_actions [action.worker 0, action.worker 0] + worker_actions as2 ≤
        4 * sys_AB_mid.thr.length ∧
      s3.waitdone fuel = some w) :=
  ⟨by decide, rfl, rfl, rfl,
   workers_exit_after_terminate sys_AB sys_AB_mid sys_AB_end [1, 2]
     [action.worker 0, action.worker 0, action.worker 0] [action.worker 0, action.worker 0]
     (by decide) rfl rfl rfl⟩

/-! ## The queue from a well-formed state -/

/-- Successive `__add_task` calls on a well-formed queue append the tasks. -/
theorem adds_WF : ∀ (ps : List Nat) (h : heap_t) (q : task_queue_t) (l : List Nat),
    WF h q l → ps.Nodup → (∀ p ∈ ps, p ≠ 0) → (∀ p ∈ ps, h p ≠ none) → (∀ p ∈ ps, p ∉ l) →
    ∃ h2 q2, adds h q ps = some (h2, q2) ∧ WF h2 q2 (l ++ ps) ∧ q2.block = q.block ∧
      (∀ a, payload h2 a = payload h a)
  | [], h, q, l, hwf, _, _, _, _ => ⟨h, q, rfl, by simpa using hwf, rfl, fun _ => rfl⟩
  | p :: ps, h, q, l, hwf, hnd, hp0, hlive, hdisj => by
    obtain ⟨cp, hcp⟩ : ∃ cp, h p = some cp := by
      cases hc : h p with
      | none => exact absurd hc (hlive p (List.mem_cons_self p ps))
      | some c => exact ⟨c, rfl⟩
    obtain ⟨h1, q1, hadd, hwf1, hb1, hpay1, hlive1⟩ :=
      add_task_WF h q l p cp hwf (hp0 p (List.mem_cons_self p ps))
        (hdisj p (List.mem_cons_self p ps)) hcp
    have hnd2 := List.nodup_cons.mp hnd
    obtain ⟨h2, q2, hadds, hwf2, hb2, hpay2⟩ :=
      adds_WF ps h1 q1 (l ++ [p]) hwf1 hnd2.2
        (fun x hx => hp0 x (List.mem_cons_of_mem p hx))
        (fun x hx hn => hlive x (List.mem_cons_of_mem p hx) ((hlive1 x).mp hn))
        (fun x hx hm => by
          rcases List.mem_append.mp hm with hm | hm
          · exact hdisj x (List.mem_cons_of_mem p hx) hm
          · simp only [List.mem_singleton] at hm
            exact hnd2.1 (hm ▸ hx))
    refine ⟨h2, q2, ?_, by simpa using hwf2, by rw [hb2, hb1], fun a => by rw [hpay2, hpay1]⟩
    simp only [adds, hadd]
    exact hadds

/-- FIFO order on a well-formed queue: when `tail` is the insertion point (as
line 107 sets it, `&queue->head` for an empty list), pushing the distinct live
tasks `ps` with `__add_task` onto a queue that holds `l` succeeds, keeps the
queue well formed, and the next pops return `l`, then `ps` in the order pushed,
then `NULL`. -/
theorem fifo_on_wellformed_queue (h : heap_t) (q : task_queue_t) (l ps : List Nat)
    (hwf : WF h q l) (hnd : ps.Nodup) (hp0 : ∀ p ∈ ps, p ≠ 0) (hlive : ∀ p ∈ ps, h p ≠ none)
    (hdisj : ∀ p ∈ ps, p ∉ l) :
    ∃ h2 q2, adds h q ps = some (h2, q2) ∧ WF h2 q2 (l ++ ps) ∧
      (∀ a, payload h2 a = payload h a) ∧
      ∃ q3, pops (l.length + ps.length + 1) h2 q2 = some (l ++ ps ++ [0], q3) ∧ q3.head = 0 := by
  obtain ⟨h2, q2, hadds, hwf2, _, hpay⟩ := adds_WF ps h q l hwf hnd hp0 hlive hdisj
  obtain ⟨q3, hpops, hh3, _⟩ := pops_linked h2 (l ++ ps) q2 hwf2.1
  refine ⟨h2, q2, hadds, hwf2, hpay, q3, ?_, hh3⟩
  rw [← List.length_append]
  exact hpops

/-- FIFO at a concrete queue: an empty queue with `tail = &queue->head`, the
tasks at addresses 1 and 2 pushed in that order. -/
theorem fifo_on_wellformed_queue_witness :
    WF heap_AB { head := 0, tail := slot.head, block := 1 } [] ∧
    ∃ h2 q2, adds heap_AB { head := 0, tail := slot.head, block := 1 } [1, 2] = some (h2, q2) ∧
      WF h2 q2 ([] ++ [1, 2]) ∧ (∀ a, payload h2 a = payload heap_AB a) ∧
      ∃ q3, pops (([] : List Nat).length + [1, 2].length + 1) h2 q2 =
        some ([] ++ [1, 2] ++ [0], q3) ∧ q3.head = 0 :=
  ⟨by decide,
   fifo_on_wellformed_queue heap_AB { head := 0, tail := slot.head, block := 1 } [] [1, 2]
     (by decide) (by decide) (by decide) (by decide) (by decide)⟩

/-- The tail invariant is kept from every well-formed state: `__add_task` of a
live task not yet linked appends it and leaves `tail` at its `next` field, and
`__pop_task` removes the first task, resetting `tail` to `&queue->head` when the
list becomes empty. -/
theorem tail_invariant_kept (h : heap_t) (q : task_queue_t) (l : List Nat) (hwf : WF h q l) :
    (∀ p cp, p ≠ 0 → p ∉ l → h p = some cp →
      ∃ h2 q2, __add_task h q p = some (h2, q2) ∧ WF h2 q2 (l ++ [p]) ∧
        q2.tail = slot.link p) ∧
    (∃ q2, __pop_task h q = some (l.headD 0, q2) ∧ WF h q2 l.tail ∧
      (l.tail = [] → q2.tail = slot.head)) := by
  constructor
  · intro p cp hp0 hpl hcp
    obtain ⟨h2, q2, hadd, hwf2, _⟩ := add_task_WF h q l p cp hwf hp0 hpl hcp
    refine ⟨h2, q2, hadd, hwf2, ?_⟩
    rw [hwf2.2, tail_of_snoc]
  · cases l with
    | nil =>
      refine ⟨q, pop_task_nil h q hwf.1, hwf, fun _ => ?_⟩
      rw [hwf.2]
      rfl
    | cons a l2 =>
      obtain ⟨q2, hpop, hwf2, _⟩ := pop_task_WF h q a l2 hwf
      refine ⟨q2, hpop, hwf2, fun e => ?_⟩
      simp only [List.tail_cons] at e
      rw [hwf2.2, e]
      rfl

/-- The tail invariant at the concrete queue that holds `A` and `B`. -/
theorem tail_invariant_kept_witness :
    WF heap_AB queue_AB [1, 2] ∧
    ∃ q2, __pop_task heap_AB queue_AB = some ([1, 2].headD 0, q2) ∧
      WF heap_AB q2 [1, 2].tail ∧ ([1, 2].tail = [] → q2.tail = slot.head) :=
  ⟨by decide, (tail_invariant_kept heap_AB queue_AB [1, 2] (by decide)).2⟩

/-! ## The pool as `thrdpool_create` builds it -/

/-- With `tail = NULL`, `thrdpool_post` faults unless it rejects. -/
theorem post_null_tail (w : world) (func arg p : Nat)
    (ht : w.pool.task_queue.tail = slot.null) :
    thrdpool_post w func arg p = none ∨ thrdpool_post w func arg p = some (-1, w) := by
  unfold thrdpool_post
  by_cases hq : w.pool.quit = 1
  · right
    rw [if_pos hq]
  · left
    rw [if_neg hq]
    by_cases hp : p = 0
    · rw [if_pos hp]
    · rw [if_neg hp]
      simp only [add_task_null_tail _ w.pool.task_queue p ht]

/-- With `tail = NULL` and `quit = 0`, `thrdpool_post` faults. -/
theorem post_null_tail_running (w : world) (func arg p : Nat) (hq : w.pool.quit = 0)
    (ht : w.pool.task_queue.tail = slot.null) : thrdpool_post w func arg p = none := by
  unfold thrdpool_post
  have hq1 : ¬ w.pool.quit = 1 := by
    rw [hq]
    decide
  rw [if_neg hq1]
  by_cases hp : p = 0
  · rw [if_pos hp]
  · rw [if_neg hp]
    simp only [add_task_null_tail _ w.pool.task_queue p ht]

/-- An empty queue with `tail = NULL` stays so under every action. -/
theorem null_tail_step (s s1 : sys) (a : action) (hs : s.step a = some s1)
    (hh : s.w.pool.task_queue.head = 0) (ht : s.w.pool.task_queue.tail = slot.null) :
    s1.w.pool.task_queue.head = 0 ∧ s1.w.pool.task_queue.tail = slot.null := by
  cases a with
  | worker i =>
    obtain ⟨l1, l2, pc, pc1, w1, _, _, _, _, htr, rfl⟩ := step_worker s s1 i hs
    cases htr with
    | top_go _ => exact ⟨hh, ht⟩
    | top_exit _ => exact ⟨hh, ht⟩
    | chk_exit _ => exact ⟨hh, ht⟩
    | chk_wait _ => exact ⟨hh, ht⟩
    | ret => exact ⟨hh, ht⟩
    | woken => exact ⟨hh, ht⟩
    | stay => exact ⟨hh, ht⟩
    | run t c h1 _ _ => exact ⟨hh, ht⟩
    | pop_empty q1 hpop =>
      have e : __pop_task s.w.heap s.w.pool.task_queue = some (0, s.w.pool.task_queue) := by
        simp [__pop_task, hh]
      rw [e] at hpop
      simp only [Option.some.injEq, Prod.mk.injEq, true_and] at hpop
      subst hpop
      exact ⟨hh, ht⟩
    | pop_task t q1 ht0 hpop =>
      have e : __pop_task s.w.heap s.w.pool.task_queue = some (0, s.w.pool.task_queue) := by
        simp [__pop_task, hh]
      rw [e] at hpop
      simp only [Option.some.injEq, Prod.mk.injEq] at hpop
      exact absurd hpop.1.symm ht0
  | wake i =>
    obtain ⟨l1, l2, _, _, rfl⟩ := step_wake s s1 i hs
    exact ⟨hh, ht⟩
  | terminate =>
    simp only [sys.step, Option.some.injEq] at hs
    subst hs
    exact ⟨hh, ht⟩

theorem null_tail_run : ∀ (as : List action) (s s1 : sys), s.run as = some s1 →
    s.w.pool.task_queue.head = 0 → s.w.pool.task_queue.tail = slot.null →
    s1.w.pool.task_queue.head = 0 ∧ s1.w.pool.task_queue.tail = slot.null
  | [], s, s1, hr, hh, ht => by
    simp only [sys.run, Option.some.injEq] at hr
    subst hr
    exact ⟨hh, ht⟩
  | a :: as, s, s1, hr, hh, ht => by
    simp only [sys.run] at hr
    cases hs : s.step a with
    | none => simp [hs] at hr
    | some s2 =>
      simp only [hs] at hr
      obtain ⟨hh2, ht2⟩ := null_tail_step s s2 a hs hh ht
      exact null_tail_run as s2 s1 hr hh2 ht2

theorem inflight_replicate_top (n : Nat) : inflight (List.replicate n wpc.top) = [] := by
  induction n with
  | zero => rfl
  | succ n ih =>
    rw [List.replicate_succ, inflight_cons_none wpc.top _ rfl]
    exact ih

theorem calls_map_spawn (l : List Nat) : calls (l.map event.spawn) = [] := by
  induction l with
  | nil => rfl
  | cons a l ih =>
    simp only [calls, List.map_cons, List.filterMap_cons] at ih ⊢
    exact ih

/-- C4, evaluated on the code: `thrdpool_create(n)` with every allocation and
every spawn succeeding returns a pool whose queue has `tail = NULL` (line 60), so
the first `thrdpool_post`, the submission of `A`, faults at the store of line 86
for every handler, context and `malloc` result.  No task is ever linked: in
every state the created pool and its `n` workers reach by worker steps,
wake-ups and `thrdpool_terminate` calls, the queue is empty with `tail = NULL`,
the log is the log of the creation, no handler has been called, and a
`thrdpool_post` faults or is rejected.  So `B` is run zero times, not once, and
a counter incremented by the tasks stays `0`. -/
theorem created_pool_never_runs_a_task (n : Nat) (h : heap_t) (hn : n < 2 ^ 31) :
    ∃ pool log, thrdpool_create env_ok 0 h (n : Int) = some (some pool, log) ∧
      pool.thrd_count = n ∧ pool.quit = 0 ∧ pool.task_queue.tail = slot.null ∧
      (∀ func arg p : Nat,
        thrdpool_post { heap := h, pool := pool, log := log } func arg p = none) ∧
      ∀ (as : List action) (s : sys),
        sys.run { w := { heap := h, pool := pool, log := log },
                  thr := List.replicate n wpc.top } as = some s →
        s.w.pool.task_queue.head = 0 ∧ s.w.pool.task_queue.tail = slot.null ∧
        s.w.log = log ∧ calls s.w.log = [] ∧ inflight s.thr = [] ∧
        ∀ func arg p : Nat, thrdpool_post s.w func arg p = none ∨
          thrdpool_post s.w func arg p = some (-1, s.w) := by
  have hloop : spawn_loop env_ok.spawn n n 0 = n :=
    spawn_loop_eq env_ok.spawn n n (le_refl n) (fun _ _ => rfl)
      (fun hlt => absurd hlt (lt_irrefl n)) n 0 (by omega) (by omega)
  refine ⟨{ task_queue := { head := 0, tail := slot.null, block := 1 }, quit := 0,
            thrd_count := (n : Int) }, (List.range n).map event.spawn, ?_, rfl, rfl, rfl, ?_, ?_⟩
  · simp [thrdpool_create, env_ok, __taskqueue_create, size_t_of_int_natCast n hn,
      __threads_create, slot.ofPtr] at hloop ⊢
    simp [hloop]
  · intro func arg p
    exact post_null_tail_running _ func arg p rfl rfl
  · intro as s hrun
    obtain ⟨hh, ht⟩ := null_tail_run as _ s hrun rfl rfl
    have hinv := Inv_run h [] ((List.range n).map event.spawn) 0 (by simp [linked]) as _ s
      (Inv_init _ [] (by simp [linked]) (inflight_replicate_top n)) hrun
    obtain ⟨X, ql, hlog, _, hperm, _⟩ := hinv
    have hnil := List.Perm.eq_nil hperm
    simp only [List.append_eq_nil] at hnil
    obtain ⟨⟨hX, hin⟩, _⟩ := hnil
    subst hX
    have hlog2 : s.w.log = (List.range n).map event.spawn := by
      rw [hlog, runs_nil, List.append_nil]
    refine ⟨hh, ht, hlog2, ?_, hin, fun func arg p => post_null_tail s.w func arg p ht⟩
    rw [hlog2, calls_map_spawn]

/-- C4 on the code at `thrdpool_create(1)`, the pool with one worker. -/
theorem created_pool_never_runs_a_task_witness :
    ∃ pool log, thrdpool_create env_ok 0 heap_empty ((1 : Nat) : Int) = some (some pool, log) ∧
      pool.thrd_count = (1 : Nat) ∧ pool.quit = 0 ∧ pool.task_queue.tail = slot.null ∧
      (∀ func arg p : Nat,
        thrdpool_post { heap := heap_empty, pool := pool, log := log } func arg p = none) ∧
      ∀ (as : List action) (s : sys),
        sys.run { w := { heap := heap_empty, pool := pool, log := log },
                  thr := List.replicate 1 wpc.top } as = some s →
        s.w.pool.task_queue.head = 0 ∧ s.w.pool.task_queue.tail = slot.null ∧
        s.w.log = log ∧ calls s.w.log = [] ∧ inflight s.thr = [] ∧
        ∀ func arg p : Nat, thrdpool_post s.w func arg p = none ∨
          thrdpool_post s.w func arg p = some (-1, s.w) :=
  created_pool_never_runs_a_task 1 heap_empty (by decide)

/-- Creation failures before the spawn loop: `thrdpool_create` returns `NULL` and
releases exactly what it had acquired.  Nothing when the pool cannot be
allocated; the pool when the queue cannot; the queue and the pool when
`pthread_mutex_init` fails; the mutex, the queue and the pool when
`pthread_cond_init` fails; and the whole queue (through `__taskqueue_destroy`)
and the pool when `pthread_attr_init` or the allocation of the thread array
fails. -/
theorem create_releases_on_init_failure (e : env) (fuel : Nat) (h : heap_t) (n : Int) :
    (e.malloc_pool = false → thrdpool_create e fuel h n = some (none, [])) ∧
    (e.malloc_pool = true → e.malloc_queue = false →
      thrdpool_create e fuel h n = some (none, [event.pool_freed])) ∧
    (e.malloc_pool = true → e.malloc_queue = true → e.mutex_init = false →
      thrdpool_create e fuel h n = some (none, [event.queue_released, event.pool_freed])) ∧
    (e.malloc_pool = true → e.malloc_queue = true → e.mutex_init = true →
      e.cond_init = false →
      thrdpool_create e fuel h n =
        some (none, [event.mutex_destroyed, event.queue_released, event.pool_freed])) ∧
    (e.malloc_pool = true → e.malloc_queue = true → e.mutex_init = true →
      e.cond_init = true → (e.attr_init ≠ 0 ∨ e.malloc_threads = false) →
      thrdpool_create e (fuel + 1) h n = some (none, [event.queue_freed, event.pool_freed])) := by
  refine ⟨?_, ?_, ?_, ?_, ?_⟩
  · intro h1
    simp [thrdpool_create, h1]
  · intro h1 h2
    simp [thrdpool_create, h1, __taskqueue_create, h2]
  · intro h1 h2 h3
    simp [thrdpool_create, h1, __taskqueue_create, h2, h3]
  · intro h1 h2 h3 h4
    simp [thrdpool_create, h1, __taskqueue_create, h2, h3, h4]
  · intro h1 h2 h3 h4 h5
    rcases h5 with h5 | h5
    · simp [thrdpool_create, h1, __taskqueue_create, h2, h3, h4, __threads_create, h5,
        __taskqueue_destroy, __pop_task]
    · by_cases h6 : e.attr_init = 0
      · simp [thrdpool_create, h1, __taskqueue_create, h2, h3, h4, __threads_create, h5, h6,
          __taskqueue_destroy, __pop_task]
      · simp [thrdpool_create, h1, __taskqueue_create, h2, h3, h4, __threads_create, h6,
          __taskqueue_destroy, __pop_task]

/-- Creation when `pthread_cond_init` fails: the mutex is destroyed, the queue
and the pool are freed, `NULL` is returned. -/
theorem create_releases_on_init_failure_witness :
    thrdpool_create env_cond_init_fails 0 heap_empty 2 =
      some (none, [event.mutex_destroyed, event.queue_released, event.pool_freed]) :=
  (create_releases_on_init_failure env_cond_init_fails 0 heap_empty 2).2.2.2.1 rfl rfl rfl rfl

end ThrdPool
